import Mathlib

/-!
# csc116_fall2018

A shallow embedding of programs of the course repository and the properties
they have: the logger of week 10, the linked list and queue of week 12,
`maxVal` of week 3, the substring functions and `invertCaps` of week 4,
`split` and `strip` of week 2 and the in-class exercises 2, 4, 10 and 11. The
definitions of all programs come first, the theorems about them follow.

# Week 10 — the logger (`sink.hpp`, `logger.hpp`, `logger.cpp`, `main.cpp`)

Modelling choices.

* A `SinkPtr` is a `std::shared_ptr<Sink>`: either null or the address of a
  sink object. Two pointers denote the same sink instance exactly when the
  addresses are equal.
* `Sink` is an abstract class, so what an override of `Sink::print` does is a
  parameter (`SinkBehaviour`): given the calls made so far it says whether
  this call returns or throws. The observable effect of the logger is the
  sequence of virtual calls `sink->print(message)` it makes, kept in a `Log`.
  A message is *delivered* to a sink when `print` is invoked on that sink
  object with that message.
* `std::map<std::string, SinkPtr>` is a list of key/value entries. Only
  `find`, `insert` and `operator[]` are used by the logger and none of them
  observes the iteration order, so entries are kept in insertion order.
-/

namespace Week10

/-! ## Sinks (`sink.hpp`) -/

/-- A `std::shared_ptr<Sink>` (`SinkPtr` in `sink.hpp:15`): null, or the
address of a live sink object. -/
inductive SinkPtr where
  | null : SinkPtr
  | obj (addr : Nat) : SinkPtr
  deriving DecidableEq, Repr

/-- The virtual calls `sink->print(message)` made so far, oldest first: the
address of the receiving sink object and the message it was given. -/
abbrev Log := List (Nat × String)

/-- What the overrides of the pure virtual `Sink::print` (`sink.hpp:12`) do:
for the calls made so far, a sink object and a message, `none` when the call
returns normally and `some e` when it throws `e`. -/
abbrev SinkBehaviour (ε : Type) := Log → Nat → String → Option ε

/-- How a call ends: it returns, an exception leaves it, or its behaviour is
undefined (a null `shared_ptr` was dereferenced). -/
inductive Outcome (ε : Type) where
  | returned : Outcome ε
  | threw (e : ε) : Outcome ε
  | undefined : Outcome ε
  deriving DecidableEq, Repr

/-- The virtual call `sink->print(message)` on the sink object at `addr`: the
call is recorded, and it returns or throws as the override decides. -/
def Sink.print {ε : Type} (beh : SinkBehaviour ε) (addr : Nat) (message : String)
    (log : Log) : Outcome ε × Log :=
  (match beh log addr message with
    | none => Outcome.returned
    | some e => Outcome.threw e,
   log ++ [(addr, message)])

/-- The messages delivered to the sink object at `addr`, oldest first. -/
def received (log : Log) (addr : Nat) : List String :=
  log.filterMap (fun c => if c.1 = addr then some c.2 else none)

/-! ## `std::map<std::string, SinkPtr>` -/

/-- The entries of a `std::map<std::string, SinkPtr>`. -/
structure StdMap where
  entries : List (String × SinkPtr)
  deriving DecidableEq, Repr

/-- The search behind `std::map::find`: the value of the first entry whose
key is `key`. -/
def StdMap.lookup : List (String × SinkPtr) → String → Option SinkPtr
  | [], _ => none
  | (k, v) :: rest, key => if k = key then some v else StdMap.lookup rest key

/-- The member `std::map::find(key)`: `some v` for an iterator to the entry
holding `v`, `none` for `end()`. -/
def StdMap.find (m : StdMap) (key : String) : Option SinkPtr :=
  StdMap.lookup m.entries key

/-- The member `std::map::insert(value)`: the entry is added only when the map
has no entry with that key; otherwise the map is left as it is. -/
def StdMap.insert (m : StdMap) (value : String × SinkPtr) : StdMap :=
  match m.find value.1 with
  | some _ => m
  | none => ⟨m.entries ++ [value]⟩

/-- The member `std::map::operator[](key)`: the mapped value; when the key is
absent an entry with a value-initialised (null) pointer is inserted first. -/
def StdMap.index (m : StdMap) (key : String) : SinkPtr × StdMap :=
  match m.find key with
  | some v => (v, m)
  | none => (SinkPtr.null, ⟨m.entries ++ [(key, SinkPtr.null)]⟩)

/-- The sinks bound under `name`: the values of all entries with that key. -/
def StdMap.bound (m : StdMap) (name : String) : List SinkPtr :=
  m.entries.filterMap (fun kv => if kv.1 = name then some kv.2 else none)

/-- The map invariant: no two entries have the same key. -/
def StdMap.UniqueKeys (m : StdMap) : Prop := (m.entries.map Prod.fst).Nodup

/-! ## The logger (`logger.hpp`, `logger.cpp`) -/

/-- The hidden state `Logger::LoggerImpl` (`logger.cpp:5-10`). -/
structure Logger.LoggerImpl where
  sinks : StdMap
  deriving DecidableEq, Repr

/-- The class `Logger` (`logger.hpp:7-26`): it owns its `LoggerImpl`. -/
structure Logger where
  mImpl : Logger.LoggerImpl
  deriving DecidableEq, Repr

/-- The constructor `Logger::Logger()` (`logger.cpp:12-14`): a default
constructed `LoggerImpl`, whose map is empty. -/
def Logger.new : Logger := ⟨⟨⟨[]⟩⟩⟩

/-- The member `Logger::print` (`logger.cpp:22-30`). -/
def Logger.print {ε : Type} (beh : SinkBehaviour ε) (this : Logger)
    (stream message : String) (log : Log) : Outcome ε × Logger × Log :=
  if (this.mImpl.sinks.find stream).isSome then
    match this.mImpl.sinks.index stream with
    | (SinkPtr.null, sinks) => (Outcome.undefined, ⟨⟨sinks⟩⟩, log)
    | (SinkPtr.obj addr, sinks) =>
      ((Sink.print beh addr message log).1, ⟨⟨sinks⟩⟩, (Sink.print beh addr message log).2)
  else (Outcome.returned, this, log)

/-- The member `Logger::addSink` (`logger.cpp:32-35`). -/
def Logger.addSink (this : Logger) (name : String) (sink : SinkPtr) : Logger :=
  ⟨⟨this.mImpl.sinks.insert (name, sink)⟩⟩

/-- A run of `print` calls on one stream, in program order: the statements
`this->print(stream, m1); ...; this->print(stream, mk);`. A call that does not
return ends the run with its outcome. -/
def printAll {ε : Type} (beh : SinkBehaviour ε) (stream : String) :
    List String → Logger → Log → Outcome ε × Logger × Log
  | [], this, log => (Outcome.returned, this, log)
  | m :: ms, this, log =>
    match Logger.print beh this stream m log with
    | (Outcome.returned, this1, log1) => printAll beh stream ms this1 log1
    | r => r

/-- A call of one of the two public members of a `Logger`. -/
inductive Call where
  | addSink (name : String) (sink : SinkPtr) : Call
  | print (stream message : String) : Call
  deriving DecidableEq, Repr

/-- One call on a logger. -/
def Call.exec {ε : Type} (beh : SinkBehaviour ε) : Call → Logger × Log → Outcome ε × Logger × Log
  | Call.addSink name sink, st => (Outcome.returned, st.1.addSink name sink, st.2)
  | Call.print stream message, st => Logger.print beh st.1 stream message st.2

/-- A finite sequence of calls on a logger, a caller that catches what a sink
throws included: the run goes on after a call that returns or throws and ends
at a call whose behaviour is undefined. -/
def runCalls {ε : Type} (beh : SinkBehaviour ε) : List Call → Logger × Log → Logger × Log
  | [], st => st
  | c :: rest, st =>
    match Call.exec beh c st with
    | (Outcome.undefined, st1) => st1
    | (_, st1) => runCalls beh rest st1

/-! ## The singleton (`Logger::getInstance`) and the program (`main.cpp`) -/

/-- The state of the running program: the function-local
`static Logger instance;` of `Logger::getInstance` (`none` until control first
passes through its declaration), how many times `Logger::Logger()` has run,
and the calls made on sinks. -/
structure Process where
  inst : Option Logger
  constructed : Nat
  log : Log
  deriving DecidableEq, Repr

/-- The program before its first statement. -/
def Process.start : Process := ⟨none, 0, []⟩

/-- The static member `Logger::getInstance` (`logger.cpp:16-20`): the static is
constructed on the first call only; the result is the object the returned
reference denotes, with the process afterwards. -/
def Logger.getInstance (p : Process) : Logger × Process :=
  match p.inst with
  | some l => (l, p)
  | none => (Logger.new, { p with inst := some Logger.new, constructed := p.constructed + 1 })

/-- The statement `Logger::getInstance().addSink(name, sink);` (`main.cpp:11`). -/
def callAddSink (name : String) (sink : SinkPtr) (p : Process) : Process :=
  { (Logger.getInstance p).2 with
    inst := some ((Logger.getInstance p).1.addSink name sink) }

/-- The statement `Logger::getInstance().print(stream, message);`
(`main.cpp:6`, `main.cpp:12`). -/
def callPrint {ε : Type} (beh : SinkBehaviour ε) (stream message : String) (p : Process) :
    Outcome ε × Process :=
  ((Logger.print beh (Logger.getInstance p).1 stream message (Logger.getInstance p).2.log).1,
   { (Logger.getInstance p).2 with
     inst := some (Logger.print beh (Logger.getInstance p).1 stream message
        (Logger.getInstance p).2.log).2.1,
     log := (Logger.print beh (Logger.getInstance p).1 stream message
        (Logger.getInstance p).2.log).2.2 })

/-- The function `foo` (`main.cpp:4-7`). -/
def foo {ε : Type} (beh : SinkBehaviour ε) (p : Process) : Outcome ε × Process :=
  callPrint beh "cout" "Foo message" p

/-- The function `main` (`main.cpp:9-16`); `sink` is the address of the object
that `std::make_shared<StreamSink>()` creates. -/
def main {ε : Type} (beh : SinkBehaviour ε) (sink : Nat) (p : Process) : Outcome ε × Process :=
  match callPrint beh "cout" "Hello World" (callAddSink "cout" (SinkPtr.obj sink) p) with
  | (Outcome.returned, p1) => foo beh p1
  | r => r

/-- The sink behaviour of sinks that never throw. -/
def quiet : SinkBehaviour String := fun _ _ _ => none

/-- A sink behaviour in which the sink at address 9 throws `"disk full"` on
every message and every other sink returns. -/
def failingAt9 : SinkBehaviour String :=
  fun _ addr _ => if addr = 9 then some "disk full" else none

end Week10

/-! # Week 12 — the linked list and the queue (`list.hpp`, `queue.cpp`) -/

namespace Week12

/-- A `NodePtr` of `list.hpp:53`, a `std::shared_ptr<Node>`: null, or a `Node`
(`list.hpp:55-64`) with its `data` and its `next` pointer. -/
inductive NodePtr (T : Type) where
  | nullptr : NodePtr T
  | node (data : T) (next : NodePtr T) : NodePtr T
  deriving DecidableEq, Repr

/-- The values of a chain of nodes, from the head on. -/
def NodePtr.toList {T : Type} : NodePtr T → List T
  | NodePtr.nullptr => []
  | NodePtr.node data next => data :: next.toList

/-- The chain of nodes holding the given values, the first at the head. -/
def NodePtr.ofList {T : Type} : List T → NodePtr T
  | [] => NodePtr.nullptr
  | x :: xs => NodePtr.node x (NodePtr.ofList xs)

/-- The class template `List<T>` of `list.hpp` (named `LinkedList` here, next
to the `List` of Lean): its only member is the head pointer. -/
structure LinkedList (T : Type) where
  mHead : NodePtr T
  deriving DecidableEq, Repr

/-- The default constructor `List()` (`list.hpp:8-10`). -/
def LinkedList.new {T : Type} : LinkedList T := ⟨NodePtr.nullptr⟩

/-- The member `push_front` (`list.hpp:20-25`). -/
def LinkedList.push_front {T : Type} (this : LinkedList T) (value : T) : LinkedList T :=
  ⟨NodePtr.node value this.mHead⟩

/-- The constructor `List(std::initializer_list<T> const&)` (`list.hpp:12-18`):
the head starts null and every element is pushed to the front in turn. -/
def LinkedList.ofInitializerList {T : Type} (list : List T) : LinkedList T :=
  list.foldl LinkedList.push_front LinkedList.new

/-- The loop and the tail of `pop_back` (`list.hpp:36-42`) with `it` at a node
holding `data` whose `next` is the argument: the result is `back->data` and the
node `it` after the walk has set the `next` of the last but one node to null.
A null `next` cannot be passed by `pop_back`; `back->data` would dereference
null there. -/
def NodePtr.detachBack {T : Type} (data : T) : NodePtr T → Option (T × NodePtr T)
  | NodePtr.nullptr => none
  | NodePtr.node back NodePtr.nullptr => some (back, NodePtr.node data NodePtr.nullptr)
  | NodePtr.node d (NodePtr.node d2 rest) =>
    match NodePtr.detachBack d (NodePtr.node d2 rest) with
    | none => none
    | some (back, it) => some (back, NodePtr.node data it)

/-- The member `pop_back` (`list.hpp:27-43`): the value removed and the list
left; `none` on the empty list, where `it->next` dereferences a null head. -/
def LinkedList.pop_back {T : Type} (this : LinkedList T) : Option (T × LinkedList T) :=
  match this.mHead with
  | NodePtr.nullptr => none
  | NodePtr.node data NodePtr.nullptr => some (data, ⟨NodePtr.nullptr⟩)
  | NodePtr.node data (NodePtr.node d2 rest) =>
    match NodePtr.detachBack data (NodePtr.node d2 rest) with
    | none => none
    | some (back, head) => some (back, ⟨head⟩)

/-- The member `empty` (`list.hpp:45-48`). -/
def LinkedList.empty {T : Type} (this : LinkedList T) : Bool :=
  match this.mHead with
  | NodePtr.nullptr => true
  | NodePtr.node _ _ => false

/-- The class template `Queue<T>` (`queue.cpp:4-32`). -/
structure Queue (T : Type) where
  mList : LinkedList T
  deriving DecidableEq, Repr

/-- The constructor `Queue()` (`queue.cpp:8-9`). -/
def Queue.new {T : Type} : Queue T := ⟨LinkedList.new⟩

/-- The constructor `Queue(std::initializer_list<T> const&)` (`queue.cpp:11-13`). -/
def Queue.ofInitializerList {T : Type} (list : List T) : Queue T :=
  ⟨LinkedList.ofInitializerList list⟩

/-- The member `push` (`queue.cpp:15-18`). -/
def Queue.push {T : Type} (this : Queue T) (val : T) : Queue T :=
  ⟨this.mList.push_front val⟩

/-- The member `pop` (`queue.cpp:20-23`). -/
def Queue.pop {T : Type} (this : Queue T) : Option (T × Queue T) :=
  match this.mList.pop_back with
  | none => none
  | some (val, list) => some (val, ⟨list⟩)

/-- The member `empty` (`queue.cpp:25-28`). -/
def Queue.empty {T : Type} (this : Queue T) : Bool := this.mList.empty

/-- The values of `n` successive `pop` calls, in call order, and the queue
left. -/
def Queue.popN {T : Type} : Nat → Queue T → Option (List T × Queue T)
  | 0, q => some ([], q)
  | n + 1, q =>
    match q.pop with
    | none => none
    | some (val, q1) =>
      match Queue.popN n q1 with
      | none => none
      | some (vals, q2) => some (val :: vals, q2)

/-- The loop `while (!q.empty()) ...` of `main` (`queue.cpp:38-42`) with the
values written to `std::cout` so far; `none` when the fuel runs out or a `pop`
is undefined. -/
def drain {T : Type} : Nat → Queue T → List T → Option (List T)
  | 0, _, _ => none
  | fuel + 1, q, out =>
    if q.empty then some out
    else
      match q.pop with
      | none => none
      | some (val, q1) => drain fuel q1 (out ++ [val])

/-- The function `main` (`queue.cpp:34-44`): the values it writes, one a line. -/
def main (fuel : Nat) : Option (List Int) :=
  drain fuel (Queue.ofInitializerList [1, 10, 100, 1000]) []

end Week12

/-! # Exceptions of the standard library -/

namespace Cpp

/-- The standard exceptions the programs throw: `std::invalid_argument` with
its message, and the `std::out_of_range` of `std::string::substr` and
`std::string::at` (its message is left to the library). -/
inductive Exception where
  | invalid_argument (what : String) : Exception
  | out_of_range : Exception
  deriving DecidableEq, Repr

/-- The result of a call that may throw: the value returned, or the exception
that leaves the call. -/
inductive Result (α : Type) where
  | value (v : α) : Result α
  | throws (e : Exception) : Result α
  deriving DecidableEq, Repr

end Cpp

/-! # Week 3 — `maxVal` (`exception.cpp`) -/

namespace Week3

/-- The loop `for (auto val : vec)` of `maxVal` (`exception.cpp:13-19`) from the
current `max`. -/
def maxValLoop : List Int → Int → Int
  | [], max => max
  | val :: rest, max => maxValLoop rest (if val > max then val else max)

/-- The function `maxVal` (`exception.cpp:5-22`). -/
def maxVal (vec : List Int) : Cpp.Result Int :=
  if vec.isEmpty then
    Cpp.Result.throws (Cpp.Exception.invalid_argument "Cannot compute maximum of an empty vector!")
  else
    Cpp.Result.value (maxValLoop vec (-1000))

end Week3

/-! # Week 4 — the two substring functions (`q5.cpp`)

A `std::string` is the list of its characters. -/

namespace Week4

/-- The conversion of an `int` argument to `std::size_t` (64 bits): the value
modulo `2 ^ 64`. -/
def toSizeT (i : Int) : Nat := (i % 2 ^ 64).toNat

/-- The member `std::string::substr(pos, count)`: it throws `std::out_of_range`
when `pos` is beyond the size, and otherwise gives the `count` characters from
`pos` on, or those up to the end of the string when there are fewer. -/
def substr (str : List Char) (pos count : Nat) : Cpp.Result (List Char) :=
  if pos > str.length then Cpp.Result.throws Cpp.Exception.out_of_range
  else Cpp.Result.value ((str.drop pos).take count)

/-- The member `std::string::at(pos)`: the character at `pos`, and
`std::out_of_range` when `pos` is not below the size. -/
def stringAt (str : List Char) (pos : Nat) : Cpp.Result Char :=
  match str.get? pos with
  | some ch => Cpp.Result.value ch
  | none => Cpp.Result.throws Cpp.Exception.out_of_range

/-- The function `substring1` (`q5.cpp:6-9`). -/
def substring1 (str : List Char) (start end_ : Int) : Cpp.Result (List Char) :=
  substr str (toSizeT start) (toSizeT end_)

/-- The loop `for (int i = start; i <= end; ++i)` of `substring2`
(`q5.cpp:14-17`) at index `i` with `sub` built so far; the first argument
bounds the number of iterations and is never exhausted when it starts at
`end + 1 - i`. -/
def substring2Loop (str : List Char) (end_ : Int) : Nat → Int → List Char → Cpp.Result (List Char)
  | 0, _, sub => Cpp.Result.value sub
  | fuel + 1, i, sub =>
    if i ≤ end_ then
      match stringAt str (toSizeT i) with
      | Cpp.Result.value ch => substring2Loop str end_ fuel (i + 1) (sub ++ [ch])
      | Cpp.Result.throws e => Cpp.Result.throws e
    else Cpp.Result.value sub

/-- The function `substring2` (`q5.cpp:11-20`). -/
def substring2 (str : List Char) (start end_ : Int) : Cpp.Result (List Char) :=
  substring2Loop str end_ (end_ + 1 - start).toNat start []

end Week4

/-! # Week 2 — `split` (`split.cpp`) and `strip` (`strip.cpp`) -/

namespace Week2

namespace Split

/-- The local variables of `split` (`split.cpp:8-10`). -/
structure State where
  words : List (List Char)
  word : List Char
  isSpace : Bool
  deriving DecidableEq, Repr

/-- The body of the loop of `split` (`split.cpp:13-35`) for the character `ch`:
its three `if` statements in turn; the last one only continues. -/
def body (delim : Char) (st : State) (ch : Char) : State :=
  let st1 : State :=
    if ch ≠ delim then { st with isSpace := false, word := st.word ++ [ch] } else st
  let st2 : State :=
    if ch = delim ∧ st1.isSpace = false then
      { isSpace := true, words := st1.words ++ [st1.word], word := [] }
    else st1
  if ch = delim ∧ st2.isSpace = true then st2 else st2

/-- The function `split` (`split.cpp:5-46`). -/
def split (str : List Char) (delim : Char) : List (List Char) :=
  if (str.foldl (body delim) ⟨[], [], false⟩).isSpace = false then
    (str.foldl (body delim) ⟨[], [], false⟩).words ++ [(str.foldl (body delim) ⟨[], [], false⟩).word]
  else (str.foldl (body delim) ⟨[], [], false⟩).words

/-- The words joined with the delimiter between them. -/
def joinWith (delim : Char) : List (List Char) → List Char
  | [] => []
  | [word] => word
  | word :: next :: rest => word ++ delim :: joinWith delim (next :: rest)

/-- The function `main` (`split.cpp:48-62`): the words it writes. -/
def main : List (List Char) := split "Some,random,text,with,no,purpose".toList ','

end Split

namespace Strip

/-- The local variables of `split` (`strip.cpp:7-9`). -/
structure SplitState where
  words : List (List Char)
  word : List Char
  isDelim : Bool
  deriving DecidableEq, Repr

/-- The body of the loop of `split` (`strip.cpp:12-28`) for the character `ch`. -/
def splitBody (delim : Char) (st : SplitState) (ch : Char) : SplitState :=
  let st1 : SplitState :=
    if ch ≠ delim then { st with isDelim := false, word := st.word ++ [ch] } else st
  let st2 : SplitState :=
    if ch = delim ∧ st1.isDelim = false then
      { words := st1.words ++ [st1.word], word := [], isDelim := true }
    else st1
  if ch = delim ∧ st2.isDelim = true then st2 else st2

/-- The function `split` (`strip.cpp:5-37`). -/
def split (line : List Char) (delim : Char) : List (List Char) :=
  if (line.foldl (splitBody delim) ⟨[], [], false⟩).isDelim = false then
    (line.foldl (splitBody delim) ⟨[], [], false⟩).words
      ++ [(line.foldl (splitBody delim) ⟨[], [], false⟩).word]
  else (line.foldl (splitBody delim) ⟨[], [], false⟩).words

/-- The local variables of `strip` (`strip.cpp:41-42`). -/
structure StripState where
  result : List Char
  isDelim : Bool
  deriving DecidableEq, Repr

/-- The body of the loop of `strip` (`strip.cpp:45-60`) for the character `ch`. -/
def stripBody (delim : Char) (st : StripState) (ch : Char) : StripState :=
  let st1 : StripState :=
    if ch ≠ delim then { result := st.result ++ [ch], isDelim := false } else st
  let st2 : StripState :=
    if ch = delim ∧ st1.isDelim = false then
      { isDelim := true, result := st1.result ++ [ch] }
    else st1
  if ch = delim ∧ st2.isDelim = true then st2 else st2

/-- The function `strip` (`strip.cpp:39-64`). -/
def strip (line : List Char) (delim : Char) : List Char :=
  (line.foldl (stripBody delim) ⟨[], false⟩).result

/-- The function `main` (`strip.cpp:66-77`): the words it writes; both calls
take the default delimiter `' '`. -/
def main : List (List Char) := split (strip "Yay    it's     Friday!".toList ' ') ' '

end Strip

end Week2

/-! # In-class exercise 2 — `mergeStrings` (`ice02.cpp`) -/

namespace Ice02

/-- The library function `std::tolower` in the default "C" locale on a `char`:
an upper-case letter `A`..`Z` gives its lower-case letter and every other ASCII
character gives itself. A character outside ASCII gives `none`: as a plain
`char` it may be negative, for which `std::tolower` is undefined. -/
def tolower (ch : Char) : Option Char :=
  if ch.toNat < 128 then
    some (if 65 ≤ ch.toNat ∧ ch.toNat ≤ 90 then Char.ofNat (ch.toNat + 32) else ch)
  else none

/-- The loop `for (auto& ch : result) ch = std::tolower(ch);`
(`ice02.cpp:21-24`). -/
def lowerAll : List Char → Option (List Char)
  | [] => some []
  | ch :: rest =>
    match tolower ch with
    | none => none
    | some low =>
      match lowerAll rest with
      | none => none
      | some lows => some (low :: lows)

/-- The function `mergeStrings` (`ice02.cpp:13-27`). -/
def mergeStrings (words : List (List Char)) : Option (List Char) :=
  lowerAll (words.foldl (fun result word => result ++ word) [])

/-- The character `low` is the character `ch` converted to lower case, in the
words of the exercise: an upper-case letter `A`..`Z` (codes 65 to 90) has
become the lower-case letter 32 codes further, any other character is
unchanged. -/
def LowerCaseOf (ch low : Char) : Prop :=
  (65 ≤ ch.toNat ∧ ch.toNat ≤ 90 → low.toNat = ch.toNat + 32)
  ∧ (¬ (65 ≤ ch.toNat ∧ ch.toNat ≤ 90) → low = ch)

/-- The function `main` (`ice02.cpp:29-35`): the line it writes. -/
def main : Option (List Char) :=
  mergeStrings ["Hello".toList, "World".toList, "again!".toList]

end Ice02

/-! # In-class exercise 10 — `sumLessThan` (`ice10.cpp`)

An `int` has 32 bits. An `int` addition whose exact result is not an `int` is
undefined behaviour; such a computation has the result `none`. -/

namespace Ice10

/-- The least `int`. -/
def INT_MIN : Int := -2147483648

/-- The greatest `int`. -/
def INT_MAX : Int := 2147483647

/-- The values of type `int`. -/
abbrev isInt (i : Int) : Prop := INT_MIN ≤ i ∧ i ≤ INT_MAX

/-- The `int` addition `a + b`: undefined when the sum overflows. -/
def addInt (a b : Int) : Option Int :=
  if isInt (a + b) then some (a + b) else none

/-- The function `forEach` (`ice10.cpp:18-24`); the callback `f` works on the
state it has captured by reference. -/
def forEach {σ : Type} : List Int → (Int → σ → Option σ) → σ → Option σ
  | [], _, s => some s
  | elem :: rest, f, s =>
    match f elem s with
    | none => none
    | some s1 => forEach rest f s1

/-- The function `sumLessThan` (`ice10.cpp:27-32`); the state of the lambda is
the captured `sum`. -/
def sumLessThan (data : List Int) (n : Int) : Option Int :=
  forEach data (fun x sum => addInt sum (if x < n then x else 0)) 0

/-- The function `sumLessThanR` (`ice10.cpp:35-50`). The local `sum` is `0` or
`data.back()`: adding an `int` to `0` does not overflow. -/
def sumLessThanR (data : List Int) (n : Int) : Option Int :=
  if h : data = [] then some 0
  else
    match sumLessThanR data.dropLast n with
    | none => none
    | some rest => addInt (if data.getLast h < n then data.getLast h else 0) rest
termination_by data.length
decreasing_by
  simp only [List.length_dropLast]
  exact Nat.sub_lt (List.length_pos.mpr h) Nat.one_pos

/-- The function `main` (`ice10.cpp:52-63`): the two sums it writes. -/
def main : Option Int × Option Int :=
  (sumLessThan [] 10, sumLessThan [1, 2, 3, 4, 5, 6, 7, 8, 9, 10] 10)

end Ice10

/-! # In-class exercise 4 — set equality (`ice04.cpp`)

A `std::set<int>` is the list of its elements in iteration order, which is
strictly ascending. -/

namespace Ice04

/-- A `std::set<int>`: its elements as an iteration meets them. -/
structure StdSet where
  elems : List Int
  deriving DecidableEq, Repr

/-- The class invariant of `std::set`: the elements are strictly ascending. -/
def StdSet.Ordered (s : StdSet) : Prop := List.Sorted (fun a b : Int => a < b) s.elems

/-- The place of a new element among ascending elements; an element that is
there already is not added again. -/
def StdSet.insertSorted (e : Int) : List Int → List Int
  | [] => [e]
  | x :: rest =>
    if e < x then e :: x :: rest
    else if x < e then x :: StdSet.insertSorted e rest
    else x :: rest

/-- The member `std::set::insert(e)`. -/
def StdSet.insert (s : StdSet) (e : Int) : StdSet := ⟨StdSet.insertSorted e s.elems⟩

/-- The constructor of `std::set<int>` from an initializer list: the elements
are inserted one by one into the empty set. -/
def StdSet.ofInitializerList (list : List Int) : StdSet :=
  list.foldl StdSet.insert ⟨[]⟩

/-- The member `std::set::size()`. -/
def StdSet.size (s : StdSet) : Nat := s.elems.length

/-- The member `std::set::find(e)`: `some` for an iterator to the element and
`none` for `end()`. -/
def StdSet.find (s : StdSet) (e : Int) : Option Int :=
  s.elems.find? (fun x => x == e)

/-- The algorithm `std::equal(first1, last1, first2)`: the elements of the
first range are compared with those of the second, one by one. -/
def stdEqual : List Int → List Int → Bool
  | [], _ => true
  | _ :: _, [] => false
  | a :: as, b :: bs => a == b && stdEqual as bs

/-- The comparison `lhs == rhs` of two sets: equal sizes and equal elements in
iteration order. -/
def StdSet.eq (lhs rhs : StdSet) : Bool :=
  lhs.size == rhs.size && stdEqual lhs.elems rhs.elems

/-- The loop `for (auto e : s1)` of `equal` (`ice04.cpp:15-23`) over the
elements still to visit, with the `return true` that follows it. -/
def equalLoop (s2 : StdSet) : List Int → Bool
  | [] => true
  | e :: rest => if (s2.find e).isNone then false else equalLoop s2 rest

/-- The function `equal` (`ice04.cpp:8-24`). -/
def equal (s1 s2 : StdSet) : Bool :=
  if s1.size ≠ s2.size then false else equalLoop s2 s1.elems

/-- The function `equal2` (`ice04.cpp:27-30`). -/
def equal2 (s1 s2 : StdSet) : Bool := StdSet.eq s1 s2

/-- The function `main` (`ice04.cpp:32-39`): the value it writes. -/
def main : Bool :=
  equal (StdSet.ofInitializerList [1, 2, 3, 4, 5]) (StdSet.ofInitializerList [2, 3, 1, 5, 4])

end Ice04

/-! # In-class exercise 11 — `removeIndex` (`ice11.cpp`) -/

namespace Ice11

/-- A `NodePtr` of `ice11.cpp:25`, a `std::shared_ptr<Node>`: null, or a
`Node` (`ice11.cpp:27-36`) with its `data` and its `next` pointer. -/
inductive NodePtr (T : Type) where
  | nullptr : NodePtr T
  | node (data : T) (next : NodePtr T) : NodePtr T
  deriving DecidableEq, Repr

/-- The values of a chain of nodes, from the head on. -/
def NodePtr.toList {T : Type} : NodePtr T → List T
  | NodePtr.nullptr => []
  | NodePtr.node data next => data :: next.toList

/-- The chain of nodes holding the given values, the first at the head. -/
def NodePtr.ofList {T : Type} : List T → NodePtr T
  | [] => NodePtr.nullptr
  | x :: xs => NodePtr.node x (NodePtr.ofList xs)

/-- The class template `List<T>` of `ice11.cpp:8-39` (named `LinkedList` here,
next to the `List` of Lean). -/
structure LinkedList (T : Type) where
  head : NodePtr T
  deriving DecidableEq, Repr

/-- The constructor `List()` (`ice11.cpp:12-14`). -/
def LinkedList.new {T : Type} : LinkedList T := ⟨NodePtr.nullptr⟩

/-- The member `push_front` (`ice11.cpp:16-21`). -/
def LinkedList.push_front {T : Type} (this : LinkedList T) (value : T) : LinkedList T :=
  ⟨NodePtr.node value this.head⟩

/-- The value of `i - 1` in `std::size_t` (64 bits): it wraps around at
`i = 0`. -/
def sizePred (i : Nat) : Nat := (i + 2 ^ 64 - 1) % 2 ^ 64

/-- The loop and the tail of `removeIndex` (`ice11.cpp:47-55`) with `it` at a
node holding `data` whose `next` is the argument, `index` as it stands and
`bound` the value of `i - 1`: the result is the value returned and the node
`it` after the assignment to the `next` of the node the walk stopped at. When
the walk stops at the last node, `pop` is null and `pop->next` is undefined. -/
def removeIndexLoop {T : Type} (bound : Nat) (data : T) : NodePtr T → Nat → Option (T × NodePtr T)
  | NodePtr.nullptr, _ => none
  | NodePtr.node d next, index =>
    if index < bound then
      match removeIndexLoop bound d next (index + 1) with
      | none => none
      | some (val, it) => some (val, NodePtr.node data it)
    else some (data, NodePtr.node data next)

/-- The function `removeIndex` (`ice11.cpp:42-56`): the value returned and the
list left; `none` when a null pointer is dereferenced. -/
def removeIndex {T : Type} (i : Nat) (list : LinkedList T) : Option (T × LinkedList T) :=
  match list.head with
  | NodePtr.nullptr => none
  | NodePtr.node data next =>
    match removeIndexLoop (sizePred i) data next 0 with
    | none => none
    | some (val, head) => some (val, ⟨head⟩)

/-- The list that `main` builds (`ice11.cpp:72-75`): `1 2 3`. -/
def mainList : LinkedList Int :=
  ((LinkedList.new.push_front 3).push_front 2).push_front 1

/-- The function `main` (`ice11.cpp:70-84`): the values the second `printList`
writes. -/
def main : Option (List Int) :=
  match removeIndex 1 mainList with
  | none => none
  | some (_, list) => some list.head.toList

end Ice11

/-! # Week 4 — `invertCaps` (`q2.cpp`) -/

namespace Week4

/-- The library function `std::isupper` in the default "C" locale on a `char`:
true for the letters `A`..`Z` (codes 65 to 90). A character outside ASCII
gives `none`: as a plain `char` it may be negative, for which the functions of
`<cctype>` are undefined. -/
def isupper (ch : Char) : Option Bool :=
  if ch.toNat < 128 then some (decide (65 ≤ ch.toNat ∧ ch.toNat ≤ 90)) else none

/-- The library function `std::islower` in the "C" locale: true for the
letters `a`..`z` (codes 97 to 122). -/
def islower (ch : Char) : Option Bool :=
  if ch.toNat < 128 then some (decide (97 ≤ ch.toNat ∧ ch.toNat ≤ 122)) else none

/-- The library function `std::tolower` in the "C" locale: an upper-case
letter gives its lower-case letter, any other ASCII character itself. -/
def tolower (ch : Char) : Option Char :=
  if ch.toNat < 128 then
    some (if 65 ≤ ch.toNat ∧ ch.toNat ≤ 90 then Char.ofNat (ch.toNat + 32) else ch)
  else none

/-- The library function `std::toupper` in the "C" locale: a lower-case
letter gives its upper-case letter, any other ASCII character itself. -/
def toupper (ch : Char) : Option Char :=
  if ch.toNat < 128 then
    some (if 97 ≤ ch.toNat ∧ ch.toNat ≤ 122 then Char.ofNat (ch.toNat - 32) else ch)
  else none

/-- The body of the inner loop of `invertCaps` (`q2.cpp:16-23`): the new value
of `ch`. -/
def invertChar (ch : Char) : Option Char :=
  match isupper ch with
  | none => none
  | some true => tolower ch
  | some false =>
    match islower ch with
    | none => none
    | some true => toupper ch
    | some false => some ch

/-- The inner loop `for (auto& ch : word)` of `invertCaps` (`q2.cpp:11-24`). -/
def invertWord : List Char → Option (List Char)
  | [] => some []
  | ch :: rest =>
    match invertChar ch with
    | none => none
    | some c =>
      match invertWord rest with
      | none => none
      | some cs => some (c :: cs)

/-- The function `invertCaps` (`q2.cpp:6-26`): the vector after the call. -/
def invertCaps : List (List Char) → Option (List (List Char))
  | [] => some []
  | word :: rest =>
    match invertWord word with
    | none => none
    | some w =>
      match invertCaps rest with
      | none => none
      | some ws => some (w :: ws)

/-- The character `out` is the character `ch` with its case swapped: an
upper-case letter (codes 65 to 90) has become the lower-case letter 32 codes
further, a lower-case letter (codes 97 to 122) the upper-case letter 32 codes
before, any other character is unchanged. -/
def CaseSwapped (ch out : Char) : Prop :=
  (65 ≤ ch.toNat ∧ ch.toNat ≤ 90 → out.toNat = ch.toNat + 32)
  ∧ (97 ≤ ch.toNat ∧ ch.toNat ≤ 122 → out.toNat + 32 = ch.toNat)
  ∧ (¬ (65 ≤ ch.toNat ∧ ch.toNat ≤ 90) ∧ ¬ (97 ≤ ch.toNat ∧ ch.toNat ≤ 122) → out = ch)

/-- The vector of `main` (`q2.cpp:39`) after `invertCaps` (`q2.cpp:41`). -/
def mainWords : Option (List (List Char)) :=
  invertCaps ["HeLlO".toList, "wOrLd".toList, "AgAiN".toList]

end Week4

/-! # Week 10 — the logger: theorems -/

namespace Week10

/-! ## Facts about the map -/

theorem StdMap.lookup_append (xs ys : List (String × SinkPtr)) (key : String) :
    StdMap.lookup (xs ++ ys) key
      = match StdMap.lookup xs key with
        | some v => some v
        | none => StdMap.lookup ys key := by
  induction xs with
  | nil => simp [StdMap.lookup]
  | cons kv rest ih =>
    obtain ⟨k, v⟩ := kv
    by_cases h : k = key
    · simp [StdMap.lookup, h]
    · simp [StdMap.lookup, h, ih]

theorem StdMap.insert_of_find_some (m : StdMap) (k : String) (v w : SinkPtr)
    (h : m.find k = some w) : m.insert (k, v) = m := by
  simp [StdMap.insert, h]

theorem StdMap.find_insert_self (m : StdMap) (k : String) (v : SinkPtr)
    (h : m.find k = none) : (m.insert (k, v)).find k = some v := by
  have h1 : StdMap.lookup m.entries k = none := h
  simp [StdMap.insert, h, StdMap.find, StdMap.lookup_append, h1, StdMap.lookup]

theorem StdMap.find_insert_first (m : StdMap) (k : String) (v : SinkPtr) :
    (m.insert (k, v)).find k = some ((m.find k).getD v) := by
  cases h : m.find k with
  | none => simpa using StdMap.find_insert_self m k v h
  | some w => rw [StdMap.insert_of_find_some m k v w h, h]; rfl

theorem StdMap.find_insert_other (m : StdMap) (k key : String) (v : SinkPtr)
    (h : k ≠ key) : (m.insert (k, v)).find key = m.find key := by
  cases hk : m.find k with
  | some w => rw [StdMap.insert_of_find_some m k v w hk]
  | none =>
    have hins : m.insert (k, v) = ⟨m.entries ++ [(k, v)]⟩ := by simp [StdMap.insert, hk]
    rw [hins]
    simp only [StdMap.find, StdMap.lookup_append, StdMap.lookup, h, if_false]
    cases StdMap.lookup m.entries key <;> rfl

theorem StdMap.index_of_find_some (m : StdMap) (k : String) (v : SinkPtr)
    (h : m.find k = some v) : m.index k = (v, m) := by
  simp [StdMap.index, h]

theorem StdMap.lookup_none_not_mem (xs : List (String × SinkPtr)) (key : String)
    (h : StdMap.lookup xs key = none) : key ∉ xs.map Prod.fst := by
  induction xs with
  | nil => simp
  | cons kv rest ih =>
    obtain ⟨k, v⟩ := kv
    by_cases hk : k = key
    · simp [StdMap.lookup, hk] at h
    · simp only [StdMap.lookup, hk, if_false] at h
      simp only [List.map_cons, List.mem_cons, not_or]
      exact ⟨fun e => hk e.symm, ih h⟩

theorem StdMap.uniqueKeys_append (m : StdMap) (k : String) (v : SinkPtr)
    (hm : m.UniqueKeys) (h : m.find k = none) :
    StdMap.UniqueKeys ⟨m.entries ++ [(k, v)]⟩ := by
  unfold StdMap.UniqueKeys at *
  simp only [List.map_append, List.map_cons, List.map_nil]
  refine List.Nodup.append hm (List.nodup_singleton k) ?_
  intro x hx hx1
  rw [List.mem_singleton] at hx1
  subst hx1
  exact StdMap.lookup_none_not_mem m.entries x h hx

theorem StdMap.uniqueKeys_insert (m : StdMap) (value : String × SinkPtr)
    (hm : m.UniqueKeys) : (m.insert value).UniqueKeys := by
  obtain ⟨k, v⟩ := value
  cases h : m.find k with
  | some w => rw [StdMap.insert_of_find_some m k v w h]; exact hm
  | none =>
    have : m.insert (k, v) = ⟨m.entries ++ [(k, v)]⟩ := by simp [StdMap.insert, h]
    rw [this]
    exact StdMap.uniqueKeys_append m k v hm h

theorem StdMap.uniqueKeys_index (m : StdMap) (key : String)
    (hm : m.UniqueKeys) : (m.index key).2.UniqueKeys := by
  cases h : m.find key with
  | some w => rw [StdMap.index_of_find_some m key w h]; exact hm
  | none =>
    have : m.index key = (SinkPtr.null, ⟨m.entries ++ [(key, SinkPtr.null)]⟩) := by
      simp [StdMap.index, h]
    rw [this]
    exact StdMap.uniqueKeys_append m key SinkPtr.null hm h

theorem StdMap.bound_length_le_one (m : StdMap) (name : String) (hm : m.UniqueKeys) :
    (m.bound name).length ≤ 1 := by
  obtain ⟨xs⟩ := m
  unfold StdMap.UniqueKeys at hm
  unfold StdMap.bound
  simp only at hm ⊢
  induction xs with
  | nil => simp
  | cons kv rest ih =>
    obtain ⟨k, v⟩ := kv
    simp only [List.map_cons, List.nodup_cons] at hm
    by_cases hk : k = name
    · subst hk
      have hnone : rest.filterMap (fun kv => if kv.1 = k then some kv.2 else none) = [] := by
        rw [List.filterMap_eq_nil_iff]
        intro kv hkv
        by_cases e : kv.1 = k
        · exact absurd (e ▸ List.mem_map_of_mem Prod.fst hkv) hm.1
        · simp [e]
      simp [List.filterMap_cons, hnone]
    · simp only [List.filterMap_cons, hk, if_false]
      exact ih hm.2

/-! ## Facts about the logger -/

theorem received_append (l1 l2 : Log) (addr : Nat) :
    received (l1 ++ l2) addr = received l1 addr ++ received l2 addr := by
  simp [received, List.filterMap_append]

theorem received_snoc_same (log : Log) (addr : Nat) (m : String) :
    received (log ++ [(addr, m)]) addr = received log addr ++ [m] := by
  simp [received, List.filterMap_append]

theorem received_snoc_other (log : Log) (addr other : Nat) (m : String) (h : other ≠ addr) :
    received (log ++ [(addr, m)]) other = received log other := by
  simp [received, List.filterMap_append, h.symm]

theorem received_map_same (S : Nat) (ms : List String) :
    received (ms.map (fun m => (S, m))) S = ms := by
  induction ms with
  | nil => rfl
  | cons m rest ih =>
    have : received ((S, m) :: rest.map (fun m => (S, m))) S
        = m :: received (rest.map (fun m => (S, m))) S := by
      simp [received, List.filterMap_cons]
    rw [List.map_cons, this, ih]

theorem Logger.print_of_bound {ε : Type} (beh : SinkBehaviour ε) (this : Logger)
    (stream message : String) (log : Log) (addr : Nat)
    (h : this.mImpl.sinks.find stream = some (SinkPtr.obj addr)) :
    Logger.print beh this stream message log
      = ((Sink.print beh addr message log).1, this, log ++ [(addr, message)]) := by
  simp [Logger.print, h, StdMap.index_of_find_some _ _ _ h, Sink.print]

theorem Logger.print_of_unbound {ε : Type} (beh : SinkBehaviour ε) (this : Logger)
    (stream message : String) (log : Log)
    (h : this.mImpl.sinks.find stream = none) :
    Logger.print beh this stream message log = (Outcome.returned, this, log) := by
  simp [Logger.print, h]

theorem Logger.print_uniqueKeys {ε : Type} (beh : SinkBehaviour ε) (this : Logger)
    (stream message : String) (log : Log) (h : this.mImpl.sinks.UniqueKeys) :
    (Logger.print beh this stream message log).2.1.mImpl.sinks.UniqueKeys := by
  unfold Logger.print
  split
  · have hi := StdMap.uniqueKeys_index this.mImpl.sinks stream h
    split <;> rename_i heq <;> rw [heq] at hi <;> exact hi
  · exact h

/-! ## Registration and dispatch -/

/-- C1, as stated, fails: on the fresh registry, after `addSink("s", A)` and
then `addSink("s", B)` with `A` at address 1 and `B` at address 2,
`print("s", "m")` delivers `"m"` to `A` and nothing to `B`. -/
theorem addSink_does_not_overwrite :
    received (Logger.print quiet ((Logger.new.addSink "s" (SinkPtr.obj 1)).addSink "s"
        (SinkPtr.obj 2)) "s" "m" []).2.2 1 = ["m"]
    ∧ received (Logger.print quiet ((Logger.new.addSink "s" (SinkPtr.obj 1)).addSink "s"
        (SinkPtr.obj 2)) "s" "m" []).2.2 2 = []
    ∧ ¬ (received (Logger.print quiet ((Logger.new.addSink "s" (SinkPtr.obj 1)).addSink "s"
          (SinkPtr.obj 2)) "s" "m" []).2.2 2 = ["m"]
        ∧ received (Logger.print quiet ((Logger.new.addSink "s" (SinkPtr.obj 1)).addSink "s"
          (SinkPtr.obj 2)) "s" "m" []).2.2 1 = []) := by
  decide

/-- C1, amended: the first registration wins. For every registry state, name
`s`, distinct sinks `A` and `B` and message `m`, after `addSink(s, A)` followed
by `addSink(s, B)` the name `s` is bound to what it was bound to first (its
binding before the two calls, else `A`); when `s` had no binding, `print(s, m)`
makes exactly one sink call, delivering `m` to `A` and nothing to `B`; when `s`
was bound to a sink `C`, `print(s, m)` delivers `m` to `C` alone. -/
theorem addSink_twice_first_wins {ε : Type} (beh : SinkBehaviour ε) (this : Logger) (log : Log)
    (s : String) (A B : Nat) (m : String) (hAB : A ≠ B) :
    ((this.addSink s (SinkPtr.obj A)).addSink s (SinkPtr.obj B)).mImpl.sinks.find s
        = some ((this.mImpl.sinks.find s).getD (SinkPtr.obj A))
    ∧ (this.mImpl.sinks.find s = none →
        (Logger.print beh ((this.addSink s (SinkPtr.obj A)).addSink s (SinkPtr.obj B))
            s m log).2.2 = log ++ [(A, m)]
        ∧ received (Logger.print beh ((this.addSink s (SinkPtr.obj A)).addSink s (SinkPtr.obj B))
            s m log).2.2 A = received log A ++ [m]
        ∧ received (Logger.print beh ((this.addSink s (SinkPtr.obj A)).addSink s (SinkPtr.obj B))
            s m log).2.2 B = received log B)
    ∧ (∀ C : Nat, this.mImpl.sinks.find s = some (SinkPtr.obj C) →
        (Logger.print beh ((this.addSink s (SinkPtr.obj A)).addSink s (SinkPtr.obj B))
            s m log).2.2 = log ++ [(C, m)]) := by
  have h1 : (this.addSink s (SinkPtr.obj A)).mImpl.sinks.find s
      = some ((this.mImpl.sinks.find s).getD (SinkPtr.obj A)) :=
    StdMap.find_insert_first this.mImpl.sinks s (SinkPtr.obj A)
  have h2 : ((this.addSink s (SinkPtr.obj A)).addSink s (SinkPtr.obj B)).mImpl.sinks.find s
      = some ((this.mImpl.sinks.find s).getD (SinkPtr.obj A)) := by
    have := StdMap.find_insert_first (this.addSink s (SinkPtr.obj A)).mImpl.sinks s (SinkPtr.obj B)
    rw [h1] at this
    simpa [Logger.addSink] using this
  refine ⟨h2, ?_, ?_⟩
  · intro hnone
    rw [hnone] at h2
    rw [Logger.print_of_bound beh _ s m log A (by simpa using h2)]
    exact ⟨rfl, received_snoc_same log A m, received_snoc_other log A B m (Ne.symm hAB)⟩
  · intro C hC
    rw [hC] at h2
    rw [Logger.print_of_bound beh _ s m log C (by simpa using h2)]

/-- The amended C1 at the fresh registry with sinks 1 and 2 under `"s"`. -/
theorem addSink_twice_first_wins_witness :
    (1 : Nat) ≠ 2
    ∧ (Logger.print quiet ((Logger.new.addSink "s" (SinkPtr.obj 1)).addSink "s"
        (SinkPtr.obj 2)) "s" "m" []).2.2 = [] ++ [(1, "m")] :=
  ⟨by decide, ((addSink_twice_first_wins quiet Logger.new [] "s" 1 2 "m" (by decide)).2.1 rfl).1⟩

/-- C2, unknown-stream silence: for every registry state, every name without a
binding in it and every message, `Logger::print` returns normally, leaves the
registry as it is and makes no call on any sink. -/
theorem print_unknown_stream_silent {ε : Type} (beh : SinkBehaviour ε) (this : Logger)
    (log : Log) (name message : String) (h : this.mImpl.sinks.find name = none) :
    Logger.print beh this name message log = (Outcome.returned, this, log)
    ∧ ∀ addr : Nat, received (Logger.print beh this name message log).2.2 addr
        = received log addr := by
  rw [Logger.print_of_unbound beh this name message log h]
  exact ⟨rfl, fun _ => rfl⟩

/-- C2 at `print("missing", "x")` on a registry that only binds `"cout"`. -/
theorem print_unknown_stream_silent_witness :
    (Logger.new.addSink "cout" (SinkPtr.obj 1)).mImpl.sinks.find "missing" = none
    ∧ Logger.print quiet (Logger.new.addSink "cout" (SinkPtr.obj 1)) "missing" "x" [(1, "old")]
        = (Outcome.returned, Logger.new.addSink "cout" (SinkPtr.obj 1), [(1, "old")]) :=
  ⟨by decide,
   (print_unknown_stream_silent quiet (Logger.new.addSink "cout" (SinkPtr.obj 1)) [(1, "old")]
      "missing" "x" (by decide)).1⟩

/-- C3, routing: in every registry where name `a` is bound to sink `SinkA` and
name `b` to a different sink `SinkB` (so `a` and `b` are distinct names),
`print(a, m1)` makes exactly one sink call, delivering `m1` to `SinkA` and
nothing to `SinkB`, and `print(b, m2)` makes exactly one sink call, delivering
`m2` to `SinkB` and nothing to `SinkA`; the registry is unchanged. -/
theorem print_routes_to_bound_sink {ε : Type} (beh : SinkBehaviour ε) (this : Logger) (log : Log)
    (a b : String) (SinkA SinkB : Nat) (m1 m2 : String)
    (ha : this.mImpl.sinks.find a = some (SinkPtr.obj SinkA))
    (hb : this.mImpl.sinks.find b = some (SinkPtr.obj SinkB))
    (hAB : SinkA ≠ SinkB) :
    a ≠ b
    ∧ (Logger.print beh this a m1 log).2 = (this, log ++ [(SinkA, m1)])
    ∧ received (Logger.print beh this a m1 log).2.2 SinkA = received log SinkA ++ [m1]
    ∧ received (Logger.print beh this a m1 log).2.2 SinkB = received log SinkB
    ∧ (Logger.print beh this b m2 log).2 = (this, log ++ [(SinkB, m2)])
    ∧ received (Logger.print beh this b m2 log).2.2 SinkB = received log SinkB ++ [m2]
    ∧ received (Logger.print beh this b m2 log).2.2 SinkA = received log SinkA := by
  rw [Logger.print_of_bound beh this a m1 log SinkA ha,
    Logger.print_of_bound beh this b m2 log SinkB hb]
  refine ⟨?_, rfl, received_snoc_same log SinkA m1, received_snoc_other log SinkA SinkB m1
    (Ne.symm hAB), rfl, received_snoc_same log SinkB m2, received_snoc_other log SinkB SinkA m2 hAB⟩
  intro e
  subst e
  rw [ha] at hb
  exact hAB (by injection hb with h; injection h)

/-- C3 on the registry `{"a": 1, "b": 2}`. -/
theorem print_routes_to_bound_sink_witness :
    received (Logger.print quiet ((Logger.new.addSink "a" (SinkPtr.obj 1)).addSink "b"
        (SinkPtr.obj 2)) "a" "m1" []).2.2 1 = [] ++ ["m1"]
    ∧ received (Logger.print quiet ((Logger.new.addSink "a" (SinkPtr.obj 1)).addSink "b"
        (SinkPtr.obj 2)) "a" "m1" []).2.2 2 = [] :=
  ⟨(print_routes_to_bound_sink quiet ((Logger.new.addSink "a" (SinkPtr.obj 1)).addSink "b"
      (SinkPtr.obj 2)) [] "a" "b" 1 2 "m1" "m2" (by decide) (by decide) (by decide)).2.2.1,
   (print_routes_to_bound_sink quiet ((Logger.new.addSink "a" (SinkPtr.obj 1)).addSink "b"
      (SinkPtr.obj 2)) [] "a" "b" 1 2 "m1" "m2" (by decide) (by decide) (by decide)).2.2.2.1⟩

/-- C4, message order on one stream: when `stream` is bound to a capturing
sink `S` (its `print` records the message and never throws), printing the
messages `ms` one after the other returns normally, leaves the registry as it
is and makes exactly the sink calls `S->print(m)` for `m` in `ms`, in that
order: `S` receives `ms`, each message once and unmodified, after what it had
received before. -/
theorem printAll_in_order {ε : Type} (beh : SinkBehaviour ε) (this : Logger) (stream : String)
    (S : Nat) (ms : List String) (log : Log)
    (hbound : this.mImpl.sinks.find stream = some (SinkPtr.obj S))
    (hcapture : ∀ (l : Log) (m : String), beh l S m = none) :
    printAll beh stream ms this log
        = (Outcome.returned, this, log ++ ms.map (fun m => (S, m)))
    ∧ received (printAll beh stream ms this log).2.2 S = received log S ++ ms := by
  have key : ∀ (l : Log), printAll beh stream ms this l
      = (Outcome.returned, this, l ++ ms.map (fun m => (S, m))) := by
    induction ms with
    | nil => intro l; simp [printAll]
    | cons m rest ih =>
      intro l
      have hp : Logger.print beh this stream m l = (Outcome.returned, this, l ++ [(S, m)]) := by
        rw [Logger.print_of_bound beh this stream m l S hbound]
        simp [Sink.print, hcapture l m]
      simp only [printAll, hp, ih (l ++ [(S, m)])]
      simp
  refine ⟨key log, ?_⟩
  rw [key log, received_append, received_map_same]

/-- C4 on `"cout"`: `"Hello World"` then `"Foo message"`. -/
theorem printAll_in_order_witness :
    (Logger.new.addSink "cout" (SinkPtr.obj 3)).mImpl.sinks.find "cout" = some (SinkPtr.obj 3)
    ∧ received (printAll quiet "cout" ["Hello World", "Foo message"]
        (Logger.new.addSink "cout" (SinkPtr.obj 3)) []).2.2 3
      = [] ++ ["Hello World", "Foo message"] :=
  ⟨by decide,
   (printAll_in_order quiet (Logger.new.addSink "cout" (SinkPtr.obj 3)) "cout" 3
      ["Hello World", "Foo message"] [] (by decide) (fun _ _ => rfl)).2⟩

/-- C5, aliasing: in every registry where the same sink object `S` is bound
under the names `n1` and `n2` (distinct or not), `print(n1, x)` followed by
`print(n2, y)` makes exactly the two sink calls `S->print(x)` and `S->print(y)`
in that order, so `S` receives `[x, y]` after what it had received before; the
registry is unchanged. -/
theorem print_aliased_sink {ε : Type} (beh : SinkBehaviour ε) (this : Logger) (log : Log)
    (n1 n2 : String) (S : Nat) (x y : String)
    (h1 : this.mImpl.sinks.find n1 = some (SinkPtr.obj S))
    (h2 : this.mImpl.sinks.find n2 = some (SinkPtr.obj S)) :
    (Logger.print beh (Logger.print beh this n1 x log).2.1 n2 y
        (Logger.print beh this n1 x log).2.2).2 = (this, log ++ [(S, x), (S, y)])
    ∧ received (Logger.print beh (Logger.print beh this n1 x log).2.1 n2 y
        (Logger.print beh this n1 x log).2.2).2.2 S = received log S ++ [x, y] := by
  rw [Logger.print_of_bound beh this n1 x log S h1]
  simp only
  rw [Logger.print_of_bound beh this n2 y _ S h2]
  simp only [List.append_assoc, List.singleton_append, true_and]
  simp [received, List.filterMap_append]

/-- C5 with sink 7 bound under `"n1"` and `"n2"`. -/
theorem print_aliased_sink_witness :
    received (Logger.print quiet (Logger.print quiet
        ((Logger.new.addSink "n1" (SinkPtr.obj 7)).addSink "n2" (SinkPtr.obj 7)) "n1" "x" []).2.1
        "n2" "y"
        (Logger.print quiet
          ((Logger.new.addSink "n1" (SinkPtr.obj 7)).addSink "n2" (SinkPtr.obj 7))
          "n1" "x" []).2.2).2.2 7
      = [] ++ ["x", "y"] :=
  (print_aliased_sink quiet ((Logger.new.addSink "n1" (SinkPtr.obj 7)).addSink "n2" (SinkPtr.obj 7))
    [] "n1" "n2" 7 "x" "y" (by decide) (by decide)).2

/-! ## The singleton -/

/-- C6, idempotent singleton: in every process state, after a call of
`Logger::getInstance` the static holds the object the call returned, and a
further call returns that same object, constructs nothing and changes nothing.
So for every name, sink and message, after
`Logger::getInstance().addSink(name, sink)` a later `Logger::getInstance()`
denotes the registry as that `addSink` left it, and
`Logger::getInstance().print(name, message)` dispatches on that registry; when
the `addSink` added a binding (the name had none), the message is delivered to
`sink`. -/
theorem getInstance_same_state {ε : Type} (beh : SinkBehaviour ε) (p : Process)
    (name : String) (sink : Nat) (message : String) :
    (Logger.getInstance p).2.inst = some (Logger.getInstance p).1
    ∧ Logger.getInstance (Logger.getInstance p).2 = Logger.getInstance p
    ∧ Logger.getInstance (callAddSink name (SinkPtr.obj sink) p)
        = ((Logger.getInstance p).1.addSink name (SinkPtr.obj sink),
           callAddSink name (SinkPtr.obj sink) p)
    ∧ (callAddSink name (SinkPtr.obj sink) p).constructed = (Logger.getInstance p).2.constructed
    ∧ (callPrint beh name message (callAddSink name (SinkPtr.obj sink) p)).2.log
        = (Logger.print beh ((Logger.getInstance p).1.addSink name (SinkPtr.obj sink))
            name message p.log).2.2
    ∧ ((Logger.getInstance p).1.mImpl.sinks.find name = none →
        (callPrint beh name message (callAddSink name (SinkPtr.obj sink) p)).2.log
          = p.log ++ [(sink, message)]) := by
  have hlog : (Logger.getInstance p).2.log = p.log := by
    unfold Logger.getInstance; cases p.inst <;> rfl
  have h1 : (Logger.getInstance p).2.inst = some (Logger.getInstance p).1 := by
    unfold Logger.getInstance; cases h : p.inst <;> simp [h]
  have h3 : Logger.getInstance (callAddSink name (SinkPtr.obj sink) p)
      = ((Logger.getInstance p).1.addSink name (SinkPtr.obj sink),
         callAddSink name (SinkPtr.obj sink) p) := by
    simp [Logger.getInstance, callAddSink]
  have h5 : (callPrint beh name message (callAddSink name (SinkPtr.obj sink) p)).2.log
      = (Logger.print beh ((Logger.getInstance p).1.addSink name (SinkPtr.obj sink))
          name message p.log).2.2 := by
    simp only [callPrint, h3]
    simp [callAddSink, hlog]
  refine ⟨h1, ?_, h3, rfl, h5, ?_⟩
  · cases hg : Logger.getInstance p with
    | mk l q =>
      rw [hg] at h1
      simp only at h1 ⊢
      simp [Logger.getInstance, h1]
  · intro hnone
    rw [h5, Logger.print_of_bound beh _ name message p.log sink
      (StdMap.find_insert_self _ name (SinkPtr.obj sink) hnone)]

/-- C6 on the program of `main.cpp`: started afresh with the sink at address 5,
`main` constructs one `Logger`, and the sink bound through the first
`getInstance()` receives what `main` and `foo` print through later ones. -/
theorem getInstance_same_state_witness :
    (Logger.getInstance Process.start).1.mImpl.sinks.find "cout" = none
    ∧ (callPrint quiet "cout" "Hello World"
        (callAddSink "cout" (SinkPtr.obj 5) Process.start)).2.log = [] ++ [(5, "Hello World")]
    ∧ (main quiet 5 Process.start).2.log = [(5, "Hello World"), (5, "Foo message")]
    ∧ (main quiet 5 Process.start).2.constructed = 1 :=
  ⟨by decide,
   (getInstance_same_state quiet Process.start "cout" 5 "Hello World").2.2.2.2.2 (by decide),
   by decide, by decide⟩

/-! ## The registry invariant -/

theorem Call.exec_uniqueKeys {ε : Type} (beh : SinkBehaviour ε) (c : Call) (st : Logger × Log)
    (h : st.1.mImpl.sinks.UniqueKeys) : (Call.exec beh c st).2.1.mImpl.sinks.UniqueKeys := by
  cases c with
  | addSink name sink => exact StdMap.uniqueKeys_insert st.1.mImpl.sinks (name, sink) h
  | print stream message => exact Logger.print_uniqueKeys beh st.1 stream message st.2 h

theorem runCalls_uniqueKeys {ε : Type} (beh : SinkBehaviour ε) (calls : List Call) :
    ∀ st : Logger × Log, st.1.mImpl.sinks.UniqueKeys →
      (runCalls beh calls st).1.mImpl.sinks.UniqueKeys := by
  induction calls with
  | nil => intro st h; exact h
  | cons c rest ih =>
    intro st h
    have hc := Call.exec_uniqueKeys beh c st h
    unfold runCalls
    split
    · rename_i st1 heq
      rw [heq] at hc
      exact hc
    · rename_i o st1 _ heq
      rw [heq] at hc
      exact ih st1 hc

/-- C7, registry invariant: in every state reached from the freshly constructed
registry by a finite sequence of `addSink` and `print` calls, every stream name
has at most one bound sink (no two entries of the map share a key). -/
theorem registry_one_sink_per_name {ε : Type} (beh : SinkBehaviour ε) (calls : List Call)
    (log : Log) (name : String) :
    ((runCalls beh calls (Logger.new, log)).1.mImpl.sinks.bound name).length ≤ 1
    ∧ (runCalls beh calls (Logger.new, log)).1.mImpl.sinks.UniqueKeys := by
  have h : (runCalls beh calls (Logger.new, log)).1.mImpl.sinks.UniqueKeys :=
    runCalls_uniqueKeys beh calls (Logger.new, log) (by simp [StdMap.UniqueKeys, Logger.new])
  exact ⟨StdMap.bound_length_le_one _ name h, h⟩

/-! ## Names, failing sinks and registration effects -/

/-- C8, the empty string is a key like any other: on a registry without a
binding for `""`, after `addSink("", S)` a `print("", m)` makes exactly one sink
call, delivering `m` to `S`, and a `print` under another name `n` that has no
binding returns without any sink call, so nothing reaches `S`. -/
theorem empty_name_is_a_key {ε : Type} (beh : SinkBehaviour ε) (this : Logger) (log : Log)
    (S : Nat) (m n m1 : String)
    (hempty : this.mImpl.sinks.find "" = none)
    (hn : n ≠ "") (hunbound : this.mImpl.sinks.find n = none) :
    (Logger.print beh (this.addSink "" (SinkPtr.obj S)) "" m log).2
        = (this.addSink "" (SinkPtr.obj S), log ++ [(S, m)])
    ∧ received (Logger.print beh (this.addSink "" (SinkPtr.obj S)) "" m log).2.2 S
        = received log S ++ [m]
    ∧ Logger.print beh (this.addSink "" (SinkPtr.obj S)) n m1 log
        = (Outcome.returned, this.addSink "" (SinkPtr.obj S), log) := by
  have h1 : (this.addSink "" (SinkPtr.obj S)).mImpl.sinks.find "" = some (SinkPtr.obj S) :=
    StdMap.find_insert_self this.mImpl.sinks "" (SinkPtr.obj S) hempty
  have h2 : (this.addSink "" (SinkPtr.obj S)).mImpl.sinks.find n = none := by
    have := StdMap.find_insert_other this.mImpl.sinks "" n (SinkPtr.obj S) (Ne.symm hn)
    rw [hunbound] at this
    exact this
  rw [Logger.print_of_bound beh _ "" m log S h1, Logger.print_of_unbound beh _ n m1 log h2]
  exact ⟨rfl, received_snoc_same log S m, rfl⟩

/-- C8 on the fresh registry, with the other name `"x"`. -/
theorem empty_name_is_a_key_witness :
    Logger.new.mImpl.sinks.find "" = none
    ∧ received (Logger.print quiet (Logger.new.addSink "" (SinkPtr.obj 4)) "" "m" []).2.2 4
        = [] ++ ["m"]
    ∧ Logger.print quiet (Logger.new.addSink "" (SinkPtr.obj 4)) "x" "m1" []
        = (Outcome.returned, Logger.new.addSink "" (SinkPtr.obj 4), []) :=
  ⟨by decide,
   (empty_name_is_a_key quiet Logger.new [] 4 "m" "x" "m1" (by decide) (by decide)
      (by decide)).2⟩

/-- C9, a sink failure propagates: in every registry where `name` is bound to a
sink `S` whose `print` throws `e` on message `m`, `Logger::print(name, m)` ends
by throwing that same `e`, having made that one call on `S`. -/
theorem print_propagates_sink_error {ε : Type} (beh : SinkBehaviour ε) (this : Logger)
    (log : Log) (name : String) (S : Nat) (m : String) (e : ε)
    (hbound : this.mImpl.sinks.find name = some (SinkPtr.obj S))
    (hthrows : beh log S m = some e) :
    Logger.print beh this name m log = (Outcome.threw e, this, log ++ [(S, m)]) := by
  rw [Logger.print_of_bound beh this name m log S hbound]
  simp [Sink.print, hthrows]

/-- C9 with the failing sink 9 bound under `"file"`. -/
theorem print_propagates_sink_error_witness :
    Logger.print failingAt9 (Logger.new.addSink "file" (SinkPtr.obj 9)) "file" "m" []
      = (Outcome.threw "disk full", Logger.new.addSink "file" (SinkPtr.obj 9), [] ++ [(9, "m")]) :=
  print_propagates_sink_error failingAt9 (Logger.new.addSink "file" (SinkPtr.obj 9)) []
    "file" 9 "m" "disk full" (by decide) (by decide)

/-- C10, registration notifies nobody: for every process state, name and sink
pointer, `Logger::getInstance().addSink(name, sink)` makes no call on any sink:
the calls made so far are the same before and after, so neither the sink being
registered nor a sink already bound under the name receives anything; the same
holds for an `addSink` call on any logger state. -/
theorem addSink_calls_no_sink {ε : Type} (beh : SinkBehaviour ε) (p : Process) (this : Logger)
    (log : Log) (name : String) (sink : SinkPtr) :
    (callAddSink name sink p).log = p.log
    ∧ (∀ addr : Nat, received (callAddSink name sink p).log addr = received p.log addr)
    ∧ Call.exec beh (Call.addSink name sink) (this, log)
        = (Outcome.returned, this.addSink name sink, log) := by
  have hlog : (callAddSink name sink p).log = p.log := by
    unfold callAddSink Logger.getInstance; cases p.inst <;> rfl
  exact ⟨hlog, fun addr => by rw [hlog], rfl⟩

end Week10

/-! # Week 12 — the queue is first-in first-out -/

namespace Week12

theorem LinkedList.foldl_push_front {T : Type} (as xs : List T) :
    as.foldl LinkedList.push_front ⟨NodePtr.ofList xs⟩
      = (⟨NodePtr.ofList (as.reverse ++ xs)⟩ : LinkedList T) := by
  induction as generalizing xs with
  | nil => rfl
  | cons a rest ih =>
    have step : LinkedList.push_front ⟨NodePtr.ofList xs⟩ a
        = (⟨NodePtr.ofList (a :: xs)⟩ : LinkedList T) := rfl
    rw [List.foldl_cons, step, ih (a :: xs)]
    simp

theorem LinkedList.ofInitializerList_eq {T : Type} (as : List T) :
    LinkedList.ofInitializerList as = ⟨NodePtr.ofList as.reverse⟩ := by
  have h := LinkedList.foldl_push_front as ([] : List T)
  simpa [LinkedList.ofInitializerList, LinkedList.new, NodePtr.ofList] using h

theorem Queue.ofInitializerList_nodes {T : Type} (as : List T) :
    Queue.ofInitializerList as = ⟨⟨NodePtr.ofList as.reverse⟩⟩ := by
  simp [Queue.ofInitializerList, LinkedList.ofInitializerList_eq]

theorem Queue.foldl_push {T : Type} (as xs : List T) :
    as.foldl Queue.push ⟨⟨NodePtr.ofList xs⟩⟩
      = (⟨⟨NodePtr.ofList (as.reverse ++ xs)⟩⟩ : Queue T) := by
  induction as generalizing xs with
  | nil => rfl
  | cons a rest ih =>
    have step : Queue.push ⟨⟨NodePtr.ofList xs⟩⟩ a
        = (⟨⟨NodePtr.ofList (a :: xs)⟩⟩ : Queue T) := rfl
    rw [List.foldl_cons, step, ih (a :: xs)]
    simp

theorem NodePtr.detachBack_ofList {T : Type} (ys : List T) (b data : T) :
    NodePtr.detachBack data (NodePtr.ofList (ys ++ [b]))
      = some (b, NodePtr.ofList (data :: ys)) := by
  induction ys generalizing data with
  | nil => rfl
  | cons y rest ih =>
    have hrest := ih y
    cases rest with
    | nil => rfl
    | cons z more =>
      simp only [List.cons_append, NodePtr.ofList] at hrest ⊢
      simp only [NodePtr.detachBack, hrest]

theorem LinkedList.pop_back_ofList {T : Type} (xs : List T) (a : T) :
    LinkedList.pop_back ⟨NodePtr.ofList (xs ++ [a])⟩ = some (a, ⟨NodePtr.ofList xs⟩) := by
  cases xs with
  | nil => rfl
  | cons x rest =>
    have h := NodePtr.detachBack_ofList rest a x
    cases rest with
    | nil => rfl
    | cons z more =>
      simp only [List.cons_append, NodePtr.ofList] at h ⊢
      simp only [LinkedList.pop_back, h]

theorem Queue.pop_ofList {T : Type} (xs : List T) (a : T) :
    Queue.pop ⟨⟨NodePtr.ofList (xs ++ [a])⟩⟩ = some (a, ⟨⟨NodePtr.ofList xs⟩⟩) := by
  simp [Queue.pop, LinkedList.pop_back_ofList]

theorem Queue.popN_ofList {T : Type} (as ys : List T) :
    Queue.popN as.length ⟨⟨NodePtr.ofList (ys ++ as.reverse)⟩⟩
      = some (as, ⟨⟨NodePtr.ofList ys⟩⟩) := by
  induction as generalizing ys with
  | nil => simp [Queue.popN]
  | cons a rest ih =>
    have hpop := Queue.pop_ofList (ys ++ rest.reverse) a
    rw [List.append_assoc] at hpop
    simp only [List.length_cons, List.reverse_cons, Queue.popN, hpop, ih ys]

theorem drain_ofList {T : Type} (as : List T) :
    ∀ (fuel : Nat) (out : List T), as.length < fuel →
      drain fuel ⟨⟨NodePtr.ofList as.reverse⟩⟩ out = some (out ++ as) := by
  induction as with
  | nil =>
    intro fuel out h
    cases fuel with
    | zero => omega
    | succ f => simp [drain, Queue.empty, LinkedList.empty, NodePtr.ofList]
  | cons a rest ih =>
    intro fuel out h
    cases fuel with
    | zero => omega
    | succ f =>
      have hpop := Queue.pop_ofList rest.reverse a
      have hne : Queue.empty (⟨⟨NodePtr.ofList (rest.reverse ++ [a])⟩⟩ : Queue T) = false := by
        cases hr : rest.reverse with
        | nil => rfl
        | cons z more => rfl
      have hlen : rest.length < f := by simpa using h
      simp only [List.reverse_cons, drain, hne, hpop, ih f (out ++ [a]) hlen]
      simp

/-- C12, the queue is first-in first-out: for every finite sequence `as`, the
`Queue` built from the initializer list `as`, and the one built by pushing the
values of `as` in turn on an empty `Queue`, both give back exactly `as`, in
that order, from `as.length` successive `pop` calls and are empty afterwards;
the loop of `main`, which pops until the queue is empty, ends and writes `as`. -/
theorem queue_fifo {T : Type} (as : List T) :
    Queue.popN as.length (Queue.ofInitializerList as) = some (as, Queue.new)
    ∧ Queue.popN as.length (as.foldl Queue.push Queue.new) = some (as, Queue.new)
    ∧ (Queue.new : Queue T).empty = true
    ∧ ∀ fuel : Nat, as.length < fuel →
        drain fuel (Queue.ofInitializerList as) [] = some as := by
  have h1 := Queue.popN_ofList as ([] : List T)
  have h2 := Queue.foldl_push as ([] : List T)
  simp only [List.nil_append, List.append_nil] at h1 h2
  refine ⟨?_, ?_, rfl, ?_⟩
  · rw [Queue.ofInitializerList_nodes]; exact h1
  · have hnew : (Queue.new : Queue T) = ⟨⟨NodePtr.ofList []⟩⟩ := rfl
    rw [hnew, h2]; exact h1
  · intro fuel hf
    rw [Queue.ofInitializerList_nodes]
    simpa using drain_ofList as fuel [] hf

/-- C12 on the queue `{1, 10, 100, 1000}` of `main`. -/
theorem queue_fifo_witness :
    Queue.popN 4 (Queue.ofInitializerList [(1 : Int), 10, 100, 1000])
      = some ([1, 10, 100, 1000], Queue.new)
    ∧ main 5 = some [1, 10, 100, 1000] :=
  ⟨(queue_fifo [(1 : Int), 10, 100, 1000]).1,
   (queue_fifo [(1 : Int), 10, 100, 1000]).2.2.2 5 (by decide)⟩

end Week12

/-! # Week 3 — `maxVal` -/

namespace Week3

theorem maxValLoop_ge_start (vec : List Int) (max : Int) : max ≤ maxValLoop vec max := by
  induction vec generalizing max with
  | nil => exact le_refl max
  | cons val rest ih =>
    simp only [maxValLoop]
    split
    · exact le_trans (le_of_lt (by assumption)) (ih val)
    · exact ih max

theorem maxValLoop_upper_bound (vec : List Int) (max : Int) :
    ∀ x ∈ vec, x ≤ maxValLoop vec max := by
  induction vec generalizing max with
  | nil => intro x hx; cases hx
  | cons val rest ih =>
    intro x hx
    simp only [maxValLoop]
    rcases List.mem_cons.mp hx with rfl | hmem
    · split
      · exact maxValLoop_ge_start rest x
      · exact le_trans (not_lt.mp (by assumption)) (maxValLoop_ge_start rest max)
    · exact ih _ x hmem

theorem maxValLoop_mem_or_start (vec : List Int) (max : Int) :
    maxValLoop vec max = max ∨ maxValLoop vec max ∈ vec := by
  induction vec generalizing max with
  | nil => exact Or.inl rfl
  | cons val rest ih =>
    simp only [maxValLoop]
    split
    · rcases ih val with h | h
      · exact Or.inr (by rw [h]; exact List.mem_cons_self val rest)
      · exact Or.inr (List.mem_cons_of_mem val h)
    · rcases ih max with h | h
      · exact Or.inl h
      · exact Or.inr (List.mem_cons_of_mem val h)

/-- What `maxVal` computes on a non-empty vector: a value that is at least
every element and at least `-1000`, and that is an element of the vector or
the starting value `-1000`. -/
theorem maxVal_of_nonempty (vec : List Int) (h : vec ≠ []) :
    maxVal vec = Cpp.Result.value (maxValLoop vec (-1000))
    ∧ (∀ x ∈ vec, x ≤ maxValLoop vec (-1000))
    ∧ -1000 ≤ maxValLoop vec (-1000)
    ∧ (maxValLoop vec (-1000) = -1000 ∨ maxValLoop vec (-1000) ∈ vec) := by
  refine ⟨?_, maxValLoop_upper_bound vec (-1000), maxValLoop_ge_start vec (-1000),
    maxValLoop_mem_or_start vec (-1000)⟩
  cases vec with
  | nil => exact absurd rfl h
  | cons v rest => rfl

/-- C13 fails on the code: on the one-element vector `{-2000}` the function
`maxVal` returns its starting value `-1000`, which is not an element of the
vector, while the maximum is `-2000`. -/
theorem maxVal_below_start_value :
    maxVal [-2000] = Cpp.Result.value (-1000)
    ∧ (-1000 : Int) ∉ [(-2000 : Int)]
    ∧ ¬ (maxVal [-2000] = Cpp.Result.value (-2000)) := by
  decide

/-- C14, the empty vector and only it is refused: `maxVal` throws exactly when
the vector is empty, and what it throws then is `std::invalid_argument` with
the message "Cannot compute maximum of an empty vector!"; it returns a value
exactly when the vector is not empty. -/
theorem maxVal_throws_iff_empty (vec : List Int) :
    (∀ e : Cpp.Exception, maxVal vec = Cpp.Result.throws e ↔
      (vec = [] ∧ e = Cpp.Exception.invalid_argument
        "Cannot compute maximum of an empty vector!"))
    ∧ ((∃ v : Int, maxVal vec = Cpp.Result.value v) ↔ vec ≠ []) := by
  cases vec with
  | nil =>
    refine ⟨fun e => ?_, ?_⟩
    · simp only [maxVal, List.isEmpty_nil, if_true, true_and]
      constructor
      · intro h; injection h with h1; exact h1.symm
      · intro h; rw [h]
    · simp [maxVal]
  | cons v rest =>
    refine ⟨fun e => ?_, ?_⟩
    · simp [maxVal]
    · simp [maxVal]

end Week3

/-! # Week 4 — the two substring functions -/

namespace Week4

/-- C15 fails on the code: on the string "abc" with `start = 0` and `end = 1`
(so `0 <= start <= end < length`), `substring1` returns "a", because `substr`
takes `end` as a number of characters, while `substring2` returns "ab", the
characters at the indices `0` to `1`. -/
theorem substring_variants_differ :
    (0 : Int) ≤ 0 ∧ (0 : Int) ≤ 1 ∧ (1 : Int) < ("abc".toList.length : Int)
    ∧ substring1 "abc".toList 0 1 = Cpp.Result.value "a".toList
    ∧ substring2 "abc".toList 0 1 = Cpp.Result.value "ab".toList
    ∧ substring1 "abc".toList 0 1 ≠ substring2 "abc".toList 0 1 := by
  decide

/-- The call of `main` (`q5.cpp:26-29`): on the 34-letter text with `start = 1`
and `end = 10` both functions give "upercalifr". -/
theorem substring_variants_on_main :
    substring1 "Supercalifragilisticexpialidocious".toList 1 10
      = Cpp.Result.value "upercalifr".toList
    ∧ substring2 "Supercalifragilisticexpialidocious".toList 1 10
      = Cpp.Result.value "upercalifr".toList := by
  decide

end Week4

/-! # Week 2 — `split` and `strip` -/

namespace Week2

namespace Split

theorem body_other (delim ch : Char) (st : State) (h : ch ≠ delim) :
    body delim st ch = { st with isSpace := false, word := st.word ++ [ch] } := by
  simp [body, h]

theorem body_first_delim (delim : Char) (st : State) (h : st.isSpace = false) :
    body delim st delim = { isSpace := true, words := st.words ++ [st.word], word := [] } := by
  simp [body, h]

theorem body_next_delim (delim : Char) (st : State) (h : st.isSpace = true) :
    body delim st delim = st := by
  simp [body, h]

theorem joinWith_cons (delim : Char) (word : List Char) (ws : List (List Char))
    (h : ws ≠ []) : joinWith delim (word :: ws) = word ++ delim :: joinWith delim ws := by
  cases ws with
  | nil => exact absurd rfl h
  | cons next rest => rfl

theorem joinWith_snoc (delim : Char) (ws : List (List Char)) (word : List Char)
    (h : ws ≠ []) : joinWith delim (ws ++ [word]) = joinWith delim ws ++ delim :: word := by
  induction ws with
  | nil => exact absurd rfl h
  | cons w rest ih =>
    cases rest with
    | nil => rfl
    | cons next more =>
      have hne : (next :: more) ≠ [] := List.cons_ne_nil next more
      rw [List.cons_append, joinWith_cons delim w _ (by simp), ih hne,
        joinWith_cons delim w _ hne]
      simp

theorem joinWith_snoc_char (delim ch : Char) (ws : List (List Char)) (word : List Char) :
    joinWith delim (ws ++ [word ++ [ch]]) = joinWith delim (ws ++ [word]) ++ [ch] := by
  cases ws with
  | nil => rfl
  | cons w rest =>
    have hne : (w :: rest) ≠ [] := List.cons_ne_nil w rest
    rw [joinWith_snoc delim _ _ hne, joinWith_snoc delim _ _ hne]
    simp

theorem joinWith_snoc_empty (delim : Char) (ws : List (List Char)) (word : List Char) :
    joinWith delim ((ws ++ [word]) ++ [[]]) = joinWith delim (ws ++ [word]) ++ [delim] :=
  joinWith_snoc delim (ws ++ [word]) [] (by simp)

/-- The loop of `split` on text without two adjacent delimiters: the words
collected so far, with the word under construction, joined by the delimiter
grow by exactly the characters read, and the flag `isSpace` tells whether the
last character read was the delimiter. -/
theorem foldl_body_joinWith (delim : Char) (chars : List Char) :
    ∀ st : State,
      List.Chain' (fun a b => ¬ (a = delim ∧ b = delim)) chars →
      (st.isSpace = true → chars.head? ≠ some delim) →
      joinWith delim ((chars.foldl (body delim) st).words ++ [(chars.foldl (body delim) st).word])
          = joinWith delim (st.words ++ [st.word]) ++ chars
      ∧ (chars ≠ [] →
          ((chars.foldl (body delim) st).isSpace = true ↔ chars.getLast? = some delim)) := by
  induction chars with
  | nil => intro st _ _; simp
  | cons ch rest ih =>
    intro st hchain hhead
    have hrest : List.Chain' (fun a b => ¬ (a = delim ∧ b = delim)) rest :=
      (List.chain'_cons'.mp hchain).2
    by_cases hch : ch = delim
    · subst hch
      have hsp : st.isSpace = false := by
        cases h : st.isSpace with
        | false => rfl
        | true => exact absurd rfl (hhead h)
      have hnext : rest.head? ≠ some ch := by
        intro hh
        exact (List.chain'_cons'.mp hchain).1 ch (by simpa using hh) ⟨rfl, rfl⟩
      obtain ⟨h1, h2⟩ := ih (body ch st ch) hrest (fun _ => hnext)
      rw [List.foldl_cons]
      refine ⟨?_, fun _ => ?_⟩
      · rw [h1, body_first_delim ch st hsp]
        simp only
        rw [joinWith_snoc_empty]
        simp
      · cases rest with
        | nil => simp [body_first_delim ch st hsp]
        | cons r more =>
          rw [h2 (List.cons_ne_nil r more)]
          simp [List.getLast?_cons_cons]
    · obtain ⟨h1, h2⟩ := ih (body delim st ch) hrest
        (fun h => by rw [body_other delim ch st hch] at h; cases h)
      rw [List.foldl_cons]
      refine ⟨?_, fun _ => ?_⟩
      · rw [h1, body_other delim ch st hch]
        simp only
        rw [joinWith_snoc_char]
        simp
      · cases rest with
        | nil => simp [body_other delim ch st hch, hch]
        | cons r more =>
          rw [h2 (List.cons_ne_nil r more)]
          simp [List.getLast?_cons_cons]

/-- C16, split round trip: for every string `s` and delimiter `d` such that `s`
does not end with `d` and has no two adjacent occurrences of `d`, the words of
`split(s, d)` joined with `d` between them are `s` again. -/
theorem split_joinWith (s : List Char) (d : Char)
    (hend : s.getLast? ≠ some d)
    (hadjacent : List.Chain' (fun a b => ¬ (a = d ∧ b = d)) s) :
    joinWith d (split s d) = s := by
  obtain ⟨h1, h2⟩ := foldl_body_joinWith d s ⟨[], [], false⟩ hadjacent (fun h => by cases h)
  have hflag : (s.foldl (body d) ⟨[], [], false⟩).isSpace = false := by
    cases s with
    | nil => rfl
    | cons c rest =>
      cases hs : ((c :: rest).foldl (body d) ⟨[], [], false⟩).isSpace with
      | false => rfl
      | true => exact absurd ((h2 (List.cons_ne_nil c rest)).mp hs) hend
  unfold split
  rw [if_pos hflag, h1]
  simp [joinWith]

/-- C16 on the text of `main`, which splits at `','` into its six words. -/
theorem split_joinWith_witness :
    split "Some,random,text,with,no,purpose".toList ','
      = ["Some".toList, "random".toList, "text".toList, "with".toList, "no".toList,
         "purpose".toList]
    ∧ joinWith ',' (split "Some,random,text,with,no,purpose".toList ',')
      = "Some,random,text,with,no,purpose".toList :=
  ⟨by decide,
   split_joinWith "Some,random,text,with,no,purpose".toList ',' (by decide)
     (by simp [String.toList])⟩

end Split

namespace Strip

theorem splitBody_other (delim ch : Char) (st : SplitState) (h : ch ≠ delim) :
    splitBody delim st ch = { st with isDelim := false, word := st.word ++ [ch] } := by
  simp [splitBody, h]

theorem splitBody_first_delim (delim : Char) (st : SplitState) (h : st.isDelim = false) :
    splitBody delim st delim
      = { words := st.words ++ [st.word], word := [], isDelim := true } := by
  simp [splitBody, h]

theorem splitBody_next_delim (delim : Char) (st : SplitState) (h : st.isDelim = true) :
    splitBody delim st delim = st := by
  simp [splitBody, h]

theorem stripBody_other (delim ch : Char) (st : StripState) (h : ch ≠ delim) :
    stripBody delim st ch = { result := st.result ++ [ch], isDelim := false } := by
  simp [stripBody, h]

theorem stripBody_first_delim (delim : Char) (st : StripState) (h : st.isDelim = false) :
    stripBody delim st delim = { isDelim := true, result := st.result ++ [delim] } := by
  simp [stripBody, h]

theorem stripBody_next_delim (delim : Char) (st : StripState) (h : st.isDelim = true) :
    stripBody delim st delim = st := by
  simp [stripBody, h]

/-- What one step of `strip` appends to the result depends on the flag only. -/
theorem stripBody_prefix (delim ch : Char) (res : List Char) (flag : Bool) :
    stripBody delim ⟨res, flag⟩ ch
      = ⟨res ++ (stripBody delim ⟨[], flag⟩ ch).result,
         (stripBody delim ⟨[], flag⟩ ch).isDelim⟩ := by
  by_cases hch : ch = delim
  · subst hch
    cases flag with
    | false => simp [stripBody_first_delim]
    | true => simp [stripBody_next_delim]
  · simp [stripBody_other _ _ _ hch]

theorem foldl_stripBody_prefix (delim : Char) (chars : List Char) :
    ∀ (res : List Char) (flag : Bool),
      chars.foldl (stripBody delim) ⟨res, flag⟩
        = ⟨res ++ (chars.foldl (stripBody delim) ⟨[], flag⟩).result,
           (chars.foldl (stripBody delim) ⟨[], flag⟩).isDelim⟩ := by
  induction chars with
  | nil => intro res flag; simp
  | cons ch rest ih =>
    intro res flag
    rw [List.foldl_cons, List.foldl_cons, stripBody_prefix delim ch res flag,
      ih (res ++ (stripBody delim ⟨[], flag⟩ ch).result),
      ih (stripBody delim ⟨[], flag⟩ ch).result]
    simp

/-- The loop of `split` reads the stripped text as it reads the text itself. -/
theorem foldl_splitBody_strip (delim : Char) (chars : List Char) :
    ∀ st : SplitState,
      (chars.foldl (stripBody delim) ⟨[], st.isDelim⟩).result.foldl (splitBody delim) st
        = chars.foldl (splitBody delim) st := by
  induction chars with
  | nil => intro st; rfl
  | cons ch rest ih =>
    intro st
    rw [List.foldl_cons, List.foldl_cons, foldl_stripBody_prefix]
    simp only [List.foldl_append]
    by_cases hch : ch = delim
    · subst hch
      cases hflag : st.isDelim with
      | false =>
        have h := ih (splitBody ch st ch)
        rw [splitBody_first_delim ch st hflag] at h ⊢
        simp only [stripBody_first_delim ch ⟨[], false⟩ rfl, List.nil_append, List.foldl_cons,
          List.foldl_nil]
        rw [splitBody_first_delim ch st hflag]
        exact h
      | true =>
        have h := ih (splitBody ch st ch)
        rw [splitBody_next_delim ch st hflag, hflag] at h
        simp only [stripBody_next_delim ch ⟨[], true⟩ rfl, List.foldl_nil]
        rw [splitBody_next_delim ch st hflag]
        exact h
    · have h := ih (splitBody delim st ch)
      rw [splitBody_other delim ch st hch] at h ⊢
      simp only [stripBody_other delim ch _ hch, List.nil_append, List.foldl_cons,
        List.foldl_nil]
      rw [splitBody_other delim ch st hch]
      exact h

/-- C17, runs of delimiters count as one: for every string `s` and delimiter
`d`, splitting the stripped string gives the same words as splitting `s`. -/
theorem split_strip (s : List Char) (d : Char) : split (strip s d) d = split s d := by
  have h := foldl_splitBody_strip d s ⟨[], [], false⟩
  unfold split strip
  rw [h]

/-- The program of `strip.cpp`: "Yay    it's     Friday!" is stripped and split
into the three words "Yay", "it's" and "Friday!". -/
theorem split_strip_on_main :
    main = ["Yay".toList, "it's".toList, "Friday!".toList]
    ∧ split "Yay    it's     Friday!".toList ' ' = main := by
  decide

end Strip

end Week2

/-! # In-class exercise 2 — `mergeStrings` -/

namespace Ice02

theorem toNat_ofNat_lower (n : Nat) (h1 : 65 ≤ n) (h2 : n ≤ 90) :
    (Char.ofNat (n + 32)).toNat = n + 32 := by
  interval_cases n <;> rfl

theorem tolower_ascii (ch : Char) (h : ch.toNat < 128) :
    ∃ low, tolower ch = some low ∧ LowerCaseOf ch low := by
  by_cases hup : 65 ≤ ch.toNat ∧ ch.toNat ≤ 90
  · refine ⟨Char.ofNat (ch.toNat + 32), by simp [tolower, h, hup], ?_, fun hn => absurd hup hn⟩
    intro _
    exact toNat_ofNat_lower ch.toNat hup.1 hup.2
  · exact ⟨ch, by simp [tolower, h, hup], fun hu => absurd hu hup, fun _ => rfl⟩

theorem lowerAll_ascii (chars : List Char) (h : ∀ c ∈ chars, c.toNat < 128) :
    ∃ lows, lowerAll chars = some lows ∧ List.Forall₂ LowerCaseOf chars lows := by
  induction chars with
  | nil => exact ⟨[], rfl, List.Forall₂.nil⟩
  | cons ch rest ih =>
    obtain ⟨low, hlow, hrel⟩ := tolower_ascii ch (h ch (List.mem_cons_self ch rest))
    obtain ⟨lows, hlows, hrels⟩ := ih (fun c hc => h c (List.mem_cons_of_mem ch hc))
    exact ⟨low :: lows, by simp [lowerAll, hlow, hlows], List.Forall₂.cons hrel hrels⟩

theorem foldl_append_join (words : List (List Char)) (acc : List Char) :
    words.foldl (fun result word => result ++ word) acc = acc ++ words.flatten := by
  induction words generalizing acc with
  | nil => simp
  | cons w rest ih => simp [ih]

/-- C18, `mergeStrings` joins and lower-cases: for every vector of ASCII
strings it returns a string `result` that is, character by character, the
concatenation of the values in vector order with every upper-case letter
converted to lower case and every other character unchanged; the length of
`result` is the sum of the lengths of the values. -/
theorem mergeStrings_joins_lower (words : List (List Char))
    (hascii : ∀ w ∈ words, ∀ c ∈ w, c.toNat < 128) :
    ∃ result, mergeStrings words = some result
      ∧ List.Forall₂ LowerCaseOf words.flatten result
      ∧ result.length = (words.map List.length).sum := by
  have hjoin : ∀ c ∈ words.flatten, c.toNat < 128 := by
    intro c hc
    obtain ⟨w, hw, hcw⟩ := List.mem_flatten.mp hc
    exact hascii w hw c hcw
  obtain ⟨lows, hlows, hrel⟩ := lowerAll_ascii words.flatten hjoin
  refine ⟨lows, ?_, hrel, ?_⟩
  · unfold mergeStrings
    rw [foldl_append_join, List.nil_append, hlows]
  · rw [← List.Forall₂.length_eq hrel, List.length_flatten]

/-- C18 on the vector of `main`: `["Hello", "World", "again!"]` gives
"helloworldagain!". -/
theorem mergeStrings_joins_lower_witness :
    mergeStrings ["Hello".toList, "World".toList, "again!".toList]
      = some "helloworldagain!".toList
    ∧ ∃ result, mergeStrings ["Hello".toList, "World".toList, "again!".toList] = some result
      ∧ List.Forall₂ LowerCaseOf ["Hello".toList, "World".toList, "again!".toList].flatten result
      ∧ result.length
          = (["Hello".toList, "World".toList, "again!".toList].map List.length).sum :=
  ⟨by decide,
   mergeStrings_joins_lower ["Hello".toList, "World".toList, "again!".toList] (by decide)⟩

end Ice02

/-! # In-class exercise 10 — `sumLessThan` -/

namespace Ice10

theorem addInt_comm (a b : Int) : addInt a b = addInt b a := by
  simp [addInt, Int.add_comm]

theorem addInt_of_isInt (a b : Int) (h : isInt (a + b)) : addInt a b = some (a + b) := by
  simp [addInt, h]

theorem forEach_append {σ : Type} (xs ys : List Int) (f : Int → σ → Option σ) (s : σ) :
    forEach (xs ++ ys) f s
      = match forEach xs f s with
        | none => none
        | some s1 => forEach ys f s1 := by
  induction xs generalizing s with
  | nil => rfl
  | cons x rest ih =>
    simp only [List.cons_append, forEach]
    cases f x s with
    | none => rfl
    | some s1 => exact ih s1

/-- The loop of `sumLessThan` from the running sum `acc`: when every running
sum is an `int`, the final sum is `acc` plus the selected elements. -/
theorem forEach_sum (n : Int) (data : List Int) :
    ∀ acc : Int,
      (∀ k : Nat, k ≤ data.length →
        isInt (acc + ((data.take k).filter (fun x => x < n)).sum)) →
      forEach data (fun x sum => addInt sum (if x < n then x else 0)) acc
        = some (acc + (data.filter (fun x => x < n)).sum) := by
  induction data with
  | nil => intro acc _; simp [forEach]
  | cons x rest ih =>
    intro acc h
    have hsel : ∀ l : List Int, ((x :: l).filter (fun y => y < n)).sum
        = (if x < n then x else 0) + (l.filter (fun y => y < n)).sum := by
      intro l
      by_cases hx : x < n <;> simp [List.filter_cons, hx]
    have h1 : isInt (acc + (if x < n then x else 0)) := by
      have := h 1 (by simp)
      simpa [List.take_succ_cons, hsel] using this
    have hrest : ∀ k : Nat, k ≤ rest.length →
        isInt (acc + (if x < n then x else 0) + ((rest.take k).filter (fun y => y < n)).sum) := by
      intro k hk
      have := h (k + 1) (by simpa using hk)
      rw [List.take_succ_cons, hsel] at this
      rw [Int.add_assoc]
      exact this
    simp only [forEach, addInt_of_isInt _ _ h1]
    rw [ih _ hrest, hsel, Int.add_assoc]

/-- One step of the recursion of `sumLessThanR`, on a vector with the last
element `x`. -/
theorem sumLessThanR_concat (xs : List Int) (x n : Int) :
    sumLessThanR (xs ++ [x]) n
      = match sumLessThanR xs n with
        | none => none
        | some rest => addInt (if x < n then x else 0) rest := by
  rw [sumLessThanR]
  simp

/-- C19 fails on the code: on the vector `{2147483646, 2147483646}` with
`n = 2147483647` both elements are below `n` and their sum `4294967292` is not
an `int`: the addition in `sumLessThan` overflows and no sum is returned. -/
theorem sumLessThan_overflows :
    isInt 2147483646 ∧ isInt 2147483647
    ∧ ([2147483646, 2147483646].filter (fun x : Int => x < 2147483647)).sum = 4294967292
    ∧ sumLessThan [2147483646, 2147483646] 2147483647 = none
    ∧ sumLessThan [2147483646, 2147483646] 2147483647
        ≠ some (([2147483646, 2147483646].filter (fun x : Int => x < 2147483647)).sum) := by
  decide

/-- C19, amended: for every vector `data` and every `n` such that the sum of
the elements below `n` in every initial part of `data` is an `int`,
`sumLessThan(data, n)` returns the sum of all elements of `data` that are
strictly less than `n`. -/
theorem sumLessThan_sum_in_range (data : List Int) (n : Int)
    (hrange : ∀ k : Nat, k ≤ data.length →
      isInt (((data.take k).filter (fun x => x < n)).sum)) :
    sumLessThan data n = some ((data.filter (fun x => x < n)).sum) := by
  have h := forEach_sum n data 0 (by simpa using hrange)
  simpa [sumLessThan] using h

/-- The amended C19 on the vectors of `main`: the empty vector gives `0` and
`1..10` with `n = 10` gives `45`. -/
theorem sumLessThan_sum_in_range_witness :
    sumLessThan [] 10 = some 0
    ∧ sumLessThan [1, 2, 3, 4, 5, 6, 7, 8, 9, 10] 10 = some 45 :=
  ⟨sumLessThan_sum_in_range [] 10 (by decide),
   sumLessThan_sum_in_range [1, 2, 3, 4, 5, 6, 7, 8, 9, 10] 10 (by decide)⟩

/-- C20, the recursive version agrees with the `forEach` version: for every
vector `data` and every `n`, `sumLessThanR(data, n)` is defined by a recursion
that ends (the vector gets shorter at each call) and has the result of
`sumLessThan(data, n)`: the same sum, or an overflowing addition in both. -/
theorem sumLessThanR_eq_sumLessThan (data : List Int) (n : Int) :
    sumLessThanR data n = sumLessThan data n := by
  induction data using List.reverseRecOn with
  | nil => rw [sumLessThanR]; simp [sumLessThan, forEach]
  | append_singleton xs x ih =>
    rw [sumLessThanR_concat, ih]
    unfold sumLessThan
    rw [forEach_append]
    cases forEach xs (fun x sum => addInt sum (if x < n then x else 0)) 0 with
    | none => rfl
    | some s =>
      simp only [forEach, addInt_comm (if x < n then x else 0) s]
      cases addInt s (if x < n then x else 0) <;> rfl

end Ice10

/-! # In-class exercise 4 — set equality -/

namespace Ice04

theorem StdSet.find_isNone_iff (s : StdSet) (e : Int) :
    (s.find e).isNone = true ↔ e ∉ s.elems := by
  simp [StdSet.find, List.find?_eq_none]
  constructor
  · intro h he; exact h e he rfl
  · intro h x hx hxe; exact h (hxe ▸ hx)

theorem equalLoop_iff (s2 : StdSet) (l : List Int) :
    equalLoop s2 l = true ↔ ∀ e ∈ l, e ∈ s2.elems := by
  induction l with
  | nil => simp [equalLoop]
  | cons e rest ih =>
    by_cases hfind : (s2.find e).isNone = true
    · have hmem := (StdSet.find_isNone_iff s2 e).mp hfind
      simp [equalLoop, hfind, hmem]
    · have hmem : e ∈ s2.elems := by
        by_contra hne
        exact hfind ((StdSet.find_isNone_iff s2 e).mpr hne)
      simp only [equalLoop, hfind, if_false, Bool.false_eq_true, ih, List.mem_cons,
        forall_eq_or_imp, hmem, true_and]

theorem stdEqual_iff (l1 l2 : List Int) (h : l1.length = l2.length) :
    stdEqual l1 l2 = true ↔ l1 = l2 := by
  induction l1 generalizing l2 with
  | nil =>
    cases l2 with
    | nil => simp [stdEqual]
    | cons b bs => simp at h
  | cons a as ih =>
    cases l2 with
    | nil => simp at h
    | cons b bs =>
      have hlen : as.length = bs.length := by simpa using h
      simp [stdEqual, ih bs hlen]

theorem eq_of_sorted_subset (l1 l2 : List Int)
    (h1 : List.Sorted (fun a b : Int => a < b) l1)
    (h2 : List.Sorted (fun a b : Int => a < b) l2)
    (hlen : l1.length = l2.length) (hsub : ∀ e ∈ l1, e ∈ l2) : l1 = l2 := by
  have hperm : l1.Perm l2 :=
    (List.subperm_of_subset h1.nodup hsub).perm_of_length_le (le_of_eq hlen.symm)
  exact List.eq_of_perm_of_sorted hperm h1 h2

theorem eq_of_sorted_same_elements (l1 l2 : List Int)
    (h1 : List.Sorted (fun a b : Int => a < b) l1)
    (h2 : List.Sorted (fun a b : Int => a < b) l2)
    (hsame : ∀ x, x ∈ l1 ↔ x ∈ l2) : l1 = l2 :=
  List.eq_of_perm_of_sorted ((List.perm_ext_iff_of_nodup h1.nodup h2.nodup).mpr hsame) h1 h2

theorem StdSet.mem_insertSorted (e x : Int) (l : List Int) :
    x ∈ StdSet.insertSorted e l ↔ x = e ∨ x ∈ l := by
  induction l with
  | nil => simp [StdSet.insertSorted]
  | cons y rest ih =>
    simp only [StdSet.insertSorted]
    split
    · simp
    · split
      · simp only [List.mem_cons, ih]
        tauto
      · have hey : e = y := by omega
        subst hey
        simp

theorem StdSet.insertSorted_sorted (e : Int) (l : List Int)
    (h : List.Sorted (fun a b : Int => a < b) l) :
    List.Sorted (fun a b : Int => a < b) (StdSet.insertSorted e l) := by
  induction l with
  | nil => simp [StdSet.insertSorted]
  | cons y rest ih =>
    have hy := List.sorted_cons.mp h
    simp only [StdSet.insertSorted]
    split
    · rename_i hlt
      refine List.sorted_cons.mpr ⟨?_, h⟩
      intro b hb
      rcases List.mem_cons.mp hb with rfl | hb
      · exact hlt
      · exact lt_trans hlt (hy.1 b hb)
    · split
      · rename_i hlt
        refine List.sorted_cons.mpr ⟨?_, ih hy.2⟩
        intro b hb
        rcases (StdSet.mem_insertSorted e b rest).mp hb with rfl | hb
        · exact hlt
        · exact hy.1 b hb
      · exact h

/-- Every set built from an initializer list satisfies the class invariant and
holds exactly the values of the list. -/
theorem StdSet.ofInitializerList_ordered (list : List Int) :
    (StdSet.ofInitializerList list).Ordered
    ∧ ∀ x, x ∈ (StdSet.ofInitializerList list).elems ↔ x ∈ list := by
  have key : ∀ (l : List Int) (s : StdSet), s.Ordered →
      (l.foldl StdSet.insert s).Ordered
      ∧ ∀ x, x ∈ (l.foldl StdSet.insert s).elems ↔ x ∈ s.elems ∨ x ∈ l := by
    intro l
    induction l with
    | nil => intro s hs; simp [hs]
    | cons e rest ih =>
      intro s hs
      have hins : (s.insert e).Ordered := StdSet.insertSorted_sorted e s.elems hs
      obtain ⟨ho, hm⟩ := ih (s.insert e) hins
      refine ⟨ho, fun x => ?_⟩
      rw [List.foldl_cons, hm x]
      simp only [StdSet.insert, StdSet.mem_insertSorted, List.mem_cons]
      tauto
  obtain ⟨ho, hm⟩ := key list ⟨[]⟩ (by simp [StdSet.Ordered])
  exact ⟨ho, fun x => by simpa [StdSet.ofInitializerList] using hm x⟩

/-- C21, the hand-written set equality is set equality: for every pair of sets
of ints `s1` and `s2`, `equal(s1, s2)` returns the same boolean as
`equal2(s1, s2)`, and that boolean is true exactly when `s1` and `s2` contain
the same elements. -/
theorem equal_eq_equal2 (s1 s2 : StdSet) (h1 : s1.Ordered) (h2 : s2.Ordered) :
    equal s1 s2 = equal2 s1 s2
    ∧ (equal s1 s2 = true ↔ ∀ x, x ∈ s1.elems ↔ x ∈ s2.elems) := by
  have hequal : equal s1 s2 = true ↔ s1.elems = s2.elems := by
    unfold equal StdSet.size
    constructor
    · intro h
      by_cases hlen : s1.elems.length = s2.elems.length
      · simp only [ne_eq, hlen, not_true_eq_false, if_false] at h
        exact eq_of_sorted_subset _ _ h1 h2 hlen ((equalLoop_iff s2 _).mp h)
      · simp [hlen] at h
    · intro h
      simp only [h, ne_eq, not_true_eq_false, if_false]
      exact (equalLoop_iff s2 _).mpr (fun e he => he)
  have hequal2 : equal2 s1 s2 = true ↔ s1.elems = s2.elems := by
    unfold equal2 StdSet.eq StdSet.size
    constructor
    · intro h
      simp only [Bool.and_eq_true, beq_iff_eq] at h
      exact (stdEqual_iff _ _ h.1).mp h.2
    · intro h
      simp only [Bool.and_eq_true, beq_iff_eq, h, true_and]
      exact (stdEqual_iff _ _ rfl).mpr rfl
  refine ⟨Bool.eq_iff_iff.mpr (hequal.trans hequal2.symm), hequal.trans ⟨?_, ?_⟩⟩
  · intro h x; rw [h]
  · exact eq_of_sorted_same_elements _ _ h1 h2

/-- C21 on the sets of `main`: `{1,2,3,4,5}` and `{2,3,1,5,4}` are equal for
both functions. -/
theorem equal_eq_equal2_witness :
    main = true
    ∧ equal (StdSet.ofInitializerList [1, 2, 3, 4, 5]) (StdSet.ofInitializerList [2, 3, 1, 5, 4])
      = equal2 (StdSet.ofInitializerList [1, 2, 3, 4, 5])
          (StdSet.ofInitializerList [2, 3, 1, 5, 4]) :=
  ⟨by decide,
   (equal_eq_equal2 (StdSet.ofInitializerList [1, 2, 3, 4, 5])
      (StdSet.ofInitializerList [2, 3, 1, 5, 4])
      (StdSet.ofInitializerList_ordered [1, 2, 3, 4, 5]).1
      (StdSet.ofInitializerList_ordered [2, 3, 1, 5, 4]).1).1⟩

end Ice04

/-! # In-class exercise 11 — `removeIndex` -/

namespace Ice11

theorem sizePred_of_pos (i : Nat) (h1 : 1 ≤ i) (h2 : i < 2 ^ 64) : sizePred i = i - 1 := by
  unfold sizePred
  norm_num at h2 ⊢
  omega

/-- The walk of `removeIndex` that has `k` more steps to take and enough nodes
ahead: it unlinks the node `k + 1` places after `it` and returns the value of
the node it stopped at. -/
theorem removeIndexLoop_unlinks {T : Type} (bound : Nat) (k : Nat) :
    ∀ (rest : List T) (data : T) (index : Nat), index + k = bound → k < rest.length →
      removeIndexLoop bound data (NodePtr.ofList rest) index
        = some ((data :: rest).getD k data,
                NodePtr.ofList ((data :: rest).eraseIdx (k + 1))) := by
  induction k with
  | zero =>
    intro rest data index hb hk
    cases rest with
    | nil => simp at hk
    | cons d next =>
      have hlt : ¬ index < bound := by omega
      simp [NodePtr.ofList, removeIndexLoop, hlt]
  | succ k ih =>
    intro rest data index hb hk
    cases rest with
    | nil => simp at hk
    | cons d next =>
      have hlt : index < bound := by omega
      have hk1 : k < next.length := by simpa using hk
      have hrec := ih next d (index + 1) (by omega) hk1
      have hk2 : k < (d :: next).length := by simp only [List.length_cons]; omega
      simp only [NodePtr.ofList, removeIndexLoop, hlt, if_true, hrec]
      simp [NodePtr.ofList, List.getElem?_eq_getElem hk2]

/-- The walk of `removeIndex` that reaches the last node before `index`
reaches the bound: `pop` is null and the result is undefined. -/
theorem removeIndexLoop_runs_off {T : Type} (bound : Nat) (rest : List T) :
    ∀ (data : T) (index : Nat), index + rest.length ≤ bound →
      removeIndexLoop bound data (NodePtr.ofList rest) index = none := by
  induction rest with
  | nil => intro data index _; rfl
  | cons d next ih =>
    intro data index h
    have hlt : index < bound := by simp at h; omega
    have hrec := ih d (index + 1) (by simp at h; omega)
    simp [NodePtr.ofList, removeIndexLoop, hlt, hrec]

/-- What `removeIndex` does for an index from `1` on: on a list holding the
values `l` and an index `i` with `1 <= i < length`, the list is left with the
element at index `i` removed and the other elements in their order, and the
value returned is the element at index `i - 1`. -/
theorem removeIndex_of_pos {T : Type} (l : List T) (i : Nat) (d : T)
    (h1 : 1 ≤ i) (h2 : i < l.length) (h3 : i < 2 ^ 64) :
    removeIndex i ⟨NodePtr.ofList l⟩
      = some (l.getD (i - 1) d, ⟨NodePtr.ofList (l.eraseIdx i)⟩) := by
  cases l with
  | nil => simp at h2
  | cons x rest =>
    obtain ⟨k, rfl⟩ : ∃ k, i = k + 1 := ⟨i - 1, by omega⟩
    have hk : k < rest.length := by simpa using h2
    have hloop := removeIndexLoop_unlinks (sizePred (k + 1)) k rest x 0
      (by rw [sizePred_of_pos (k + 1) h1 h3]; omega) hk
    have hget : (x :: rest).getD k d = (x :: rest).getD k x := by
      rw [List.getD_eq_getElem _ _ (by simp; omega), List.getD_eq_getElem _ _ (by simp; omega)]
    simp only [removeIndex, NodePtr.ofList, hloop, Nat.add_sub_cancel, hget]

/-- What `removeIndex` does for the index `0`: `i - 1` wraps around, the walk
runs to the last node and dereferences the null `pop`. -/
theorem removeIndex_zero {T : Type} (l : List T) (h : l.length < 2 ^ 64) :
    removeIndex 0 ⟨NodePtr.ofList l⟩ = none := by
  cases l with
  | nil => rfl
  | cons x rest =>
    have hb : 0 + rest.length ≤ sizePred 0 := by
      unfold sizePred
      simp only [List.length_cons] at h
      norm_num at h ⊢
      omega
    simp [removeIndex, NodePtr.ofList, removeIndexLoop_runs_off (sizePred 0) rest x 0 hb]

/-- C22 fails on the code: on the list `1 2 3` of `main` the index `0` is valid,
but `removeIndex(0, list)` removes nothing: its walk runs to the last node,
where `pop` is null and `pop->next` is undefined; the list `2 3` that the claim
asks for is not produced. With the index `1` of `main` the list becomes
`1 3`. -/
theorem removeIndex_head_undefined :
    mainList.head.toList = [1, 2, 3]
    ∧ removeIndex 0 mainList = none
    ∧ removeIndex 0 mainList ≠ some (1, ⟨NodePtr.ofList [2, 3]⟩)
    ∧ main = some [1, 3] := by
  decide

end Ice11

/-! # Week 4 — `invertCaps` -/

namespace Week4

theorem toNat_ofNat_add32 (n : Nat) (h1 : 65 ≤ n) (h2 : n ≤ 90) :
    (Char.ofNat (n + 32)).toNat = n + 32 := by
  interval_cases n <;> rfl

theorem toNat_ofNat_sub32 (n : Nat) (h1 : 97 ≤ n) (h2 : n ≤ 122) :
    (Char.ofNat (n - 32)).toNat + 32 = n := by
  interval_cases n <;> rfl

theorem invertChar_ascii (ch : Char) (h : ch.toNat < 128) :
    ∃ out, invertChar ch = some out ∧ CaseSwapped ch out := by
  by_cases hup : 65 ≤ ch.toNat ∧ ch.toNat ≤ 90
  · refine ⟨Char.ofNat (ch.toNat + 32), by simp [invertChar, isupper, tolower, h, hup], ?_, ?_, ?_⟩
    · intro _; exact toNat_ofNat_add32 ch.toNat hup.1 hup.2
    · intro hlow; omega
    · intro hn; exact absurd hup hn.1
  · by_cases hlow : 97 ≤ ch.toNat ∧ ch.toNat ≤ 122
    · refine ⟨Char.ofNat (ch.toNat - 32),
        by simp [invertChar, isupper, islower, toupper, h, hup, hlow], ?_, ?_, ?_⟩
      · intro hu; exact absurd hu hup
      · intro _; exact toNat_ofNat_sub32 ch.toNat hlow.1 hlow.2
      · intro hn; exact absurd hlow hn.2
    · refine ⟨ch, by simp [invertChar, isupper, islower, h, hup, hlow], ?_, ?_, ?_⟩
      · intro hu; exact absurd hu hup
      · intro hl; exact absurd hl hlow
      · intro _; rfl

theorem invertWord_ascii (word : List Char) (h : ∀ c ∈ word, c.toNat < 128) :
    ∃ out, invertWord word = some out ∧ List.Forall₂ CaseSwapped word out := by
  induction word with
  | nil => exact ⟨[], rfl, List.Forall₂.nil⟩
  | cons ch rest ih =>
    obtain ⟨c, hc, hrel⟩ := invertChar_ascii ch (h ch (List.mem_cons_self ch rest))
    obtain ⟨cs, hcs, hrels⟩ := ih (fun x hx => h x (List.mem_cons_of_mem ch hx))
    exact ⟨c :: cs, by simp [invertWord, hc, hcs], List.Forall₂.cons hrel hrels⟩

/-- C23, `invertCaps` swaps case in place: for every vector of ASCII words the
call returns and leaves a vector with as many words, each as long as before,
in which, character by character, every upper-case letter has become the
corresponding lower-case letter, every lower-case letter the corresponding
upper-case letter and every other character is unchanged. -/
theorem invertCaps_swaps_case (words : List (List Char))
    (hascii : ∀ w ∈ words, ∀ c ∈ w, c.toNat < 128) :
    ∃ result, invertCaps words = some result
      ∧ List.Forall₂ (List.Forall₂ CaseSwapped) words result
      ∧ result.length = words.length
      ∧ result.map List.length = words.map List.length := by
  induction words with
  | nil => exact ⟨[], rfl, List.Forall₂.nil, rfl, rfl⟩
  | cons word rest ih =>
    obtain ⟨w, hw, hrel⟩ := invertWord_ascii word (hascii word (List.mem_cons_self word rest))
    obtain ⟨ws, hws, hrels, hlen, hlens⟩ :=
      ih (fun x hx => hascii x (List.mem_cons_of_mem word hx))
    refine ⟨w :: ws, by simp [invertCaps, hw, hws], List.Forall₂.cons hrel hrels, ?_, ?_⟩
    · simp [hlen]
    · simp [hlens, List.Forall₂.length_eq hrel]

/-- C23 on the vector of `main`: `["HeLlO", "wOrLd", "AgAiN"]` becomes
`["hElLo", "WoRlD", "aGaIn"]`. -/
theorem invertCaps_swaps_case_witness :
    invertCaps ["HeLlO".toList, "wOrLd".toList, "AgAiN".toList]
      = some ["hElLo".toList, "WoRlD".toList, "aGaIn".toList]
    ∧ ∃ result, invertCaps ["HeLlO".toList, "wOrLd".toList, "AgAiN".toList] = some result
      ∧ List.Forall₂ (List.Forall₂ CaseSwapped)
          ["HeLlO".toList, "wOrLd".toList, "AgAiN".toList] result
      ∧ result.length = ["HeLlO".toList, "wOrLd".toList, "AgAiN".toList].length
      ∧ result.map List.length
          = ["HeLlO".toList, "wOrLd".toList, "AgAiN".toList].map List.length :=
  ⟨by decide,
   invertCaps_swaps_case ["HeLlO".toList, "wOrLd".toList, "AgAiN".toList] (by decide)⟩

end Week4
